import Mathlib

/-!
Verification of the `anipaca-proxy` HLS reverse proxy (`src/api/proxy.ts`).

Strings of the JavaScript source are modelled as lists of characters
(`Str := List Char`); every JavaScript string operation used by the source
(`trim`, `includes`, `startsWith`, `endsWith`, `split(/\r?\n/)`, `substring` /
`lastIndexOf`, the global regex replace over `URI="([^"]+)"`) is given an
executable Lean definition.  The platform primitives `encodeURIComponent` and
`new URL(input, base)` (WHATWG URL), which the source calls but does not
define, are modelled executably as well; fallible URL construction returns
`Option`, a `none` modelling a thrown `TypeError`.

The request handler is embedded as a pure function of the inbound request and
of the outcome of the single upstream `fetch`; the pair it returns records
which upstream request (if any) was issued, together with the outbound
response (status, headers, body).
-/

/-- JavaScript strings, modelled as lists of Unicode scalar values. -/
abbrev Str := List Char

/-- Literal helper: the character list of a Lean string literal. -/
def str (s : String) : Str := s.data

/-- The JavaScript `WhiteSpace`/`LineTerminator` set recognised by
`String.prototype.trim`. -/
def isJsWs (c : Char) : Bool :=
  let v := c.toNat
  v = 9 || v = 10 || v = 11 || v = 12 || v = 13 || v = 32 || v = 160 ||
  v = 0x1680 || (0x2000 ≤ v && v ≤ 0x200A) || v = 0x2028 || v = 0x2029 ||
  v = 0x202F || v = 0x205F || v = 0x3000 || v = 0xFEFF

/-- `String.prototype.trim`: strip JS whitespace from both ends. -/
def jsTrim (s : Str) : Str :=
  ((s.dropWhile isJsWs).reverse.dropWhile isJsWs).reverse

/-- `String.prototype.includes`: substring containment. -/
def containsSub : Str → Str → Bool
  | s@(_ :: t), pat => pat.isPrefixOf s || containsSub t pat
  | [], pat => pat.isEmpty

/-- Prepend a character to the first chunk of a split result. -/
def consHead (c : Char) : List Str → List Str
  | [] => [[c]]
  | l :: ls => (c :: l) :: ls

/-- Split at every `\n`. -/
def splitNL : Str → List Str
  | [] => [[]]
  | c :: rest => if c = '\n' then [] :: splitNL rest else consHead c (splitNL rest)

/-- Remove one trailing `\r`, as the separator `\r?\n` consumes it. -/
def stripCR (l : Str) : Str := if l.getLast? = some '\r' then l.dropLast else l

/-- Apply `f` to every element but the last. -/
def mapButLast (f : Str → Str) : List Str → List Str
  | [] => []
  | [x] => [x]
  | x :: xs => f x :: mapButLast f xs

/-- `content.split(/\r?\n/)`: split at every `\n`, with the separator also
consuming an immediately preceding `\r`; a `\r` not followed by `\n` is
ordinary content (in particular in the final chunk, which no separator
terminates). -/
def splitLines (s : Str) : List Str := mapButLast stripCR (splitNL s)

/-- `.join('\n')` on a list of lines. -/
def joinNL (ls : List Str) : Str := List.intercalate [ '\n' ] ls

/-- `targetUrl.substring(0, targetUrl.lastIndexOf('/') + 1)`: the prefix up to
and including the last slash, empty when there is no slash. -/
def basePath (t : Str) : Str := (t.reverse.dropWhile (fun c => c != '/')).reverse

/-! ## Model of `encodeURIComponent` and percent-decoding -/

/-- Hex digit character for `n < 16` (uppercase, as `encodeURIComponent`
emits). -/
def hexDigit (n : Nat) : Char :=
  if n < 10 then Char.ofNat (48 + n) else Char.ofNat (55 + n)

/-- Numeric value of a hex digit character. -/
def hexVal (c : Char) : Option Nat :=
  let v := c.toNat
  if 48 ≤ v ∧ v ≤ 57 then some (v - 48)
  else if 65 ≤ v ∧ v ≤ 70 then some (v - 55)
  else if 97 ≤ v ∧ v ≤ 102 then some (v - 87)
  else none

/-- `%XY` percent escape of one byte. -/
def pctByte (b : Nat) : Str := ['%', hexDigit (b / 16), hexDigit (b % 16)]

/-- UTF-8 bytes of a Unicode scalar value. -/
def utf8Bytes (v : Nat) : List Nat :=
  if v < 0x80 then [v]
  else if v < 0x800 then [0xC0 + v / 64, 0x80 + v % 64]
  else if v < 0x10000 then [0xE0 + v / 4096, 0x80 + v / 64 % 64, 0x80 + v % 64]
  else [0xF0 + v / 262144, 0x80 + v / 4096 % 64, 0x80 + v / 64 % 64, 0x80 + v % 64]

/-- The characters `encodeURIComponent` leaves unescaped
(`A–Z a–z 0–9 - _ . ! ~ * ' ( )`). -/
def isUriUnreserved (c : Char) : Bool :=
  let v := c.toNat
  (48 ≤ v && v ≤ 57) || (65 ≤ v && v ≤ 90) || (97 ≤ v && v ≤ 122) ||
  v = 45 || v = 95 || v = 46 || v = 33 || v = 126 || v = 42 || v = 39 ||
  v = 40 || v = 41

/-- Percent-escape of one character: the `%XY` escapes of its UTF-8 bytes. -/
def pctEncodeChar (c : Char) : Str := ((utf8Bytes c.toNat).map pctByte).flatten

/-- Model of the platform primitive `encodeURIComponent`. -/
def encodeURIComponent (s : Str) : Str :=
  (s.map (fun c => if isUriUnreserved c then [c] else pctEncodeChar c)).flatten

/-- Numeric value of two hex digit characters. -/
def hex2 (h1 h2 : Char) : Option Nat :=
  match hexVal h1, hexVal h2 with
  | some a, some b => some (a * 16 + b)
  | _, _ => none

/-- Read one percent-escaped UTF-8 continuation byte. -/
def contByte : Str → Option (Nat × Str)
  | c :: h1 :: h2 :: r =>
    if c = '%' then
      match hex2 h1 h2 with
      | some b => if 0x80 ≤ b ∧ b < 0xC0 then some (b, r) else none
      | none => none
    else none
  | _ => none

/-- Given a decoded lead byte, read the remaining percent-escaped
continuation bytes of one UTF-8 sequence and return its scalar value. -/
def decodeSeq (b0 : Nat) (r : Str) : Option (Nat × Str) :=
  if b0 < 0x80 then some (b0, r)
  else if b0 < 0xC2 then none
  else if b0 < 0xE0 then
    match contByte r with
    | some (b1, r1) => some ((b0 - 0xC0) * 64 + (b1 - 0x80), r1)
    | none => none
  else if b0 < 0xF0 then
    match contByte r with
    | some (b1, r1) =>
      match contByte r1 with
      | some (b2, r2) =>
        let v := (b0 - 0xE0) * 4096 + (b1 - 0x80) * 64 + (b2 - 0x80)
        if 0x800 ≤ v ∧ (v < 0xD800 ∨ 0xE000 ≤ v) then some (v, r2) else none
      | none => none
    | none => none
  else if b0 < 0xF5 then
    match contByte r with
    | some (b1, r1) =>
      match contByte r1 with
      | some (b2, r2) =>
        match contByte r2 with
        | some (b3, r3) =>
          let v := (b0 - 0xF0) * 262144 + (b1 - 0x80) * 4096 +
            (b2 - 0x80) * 64 + (b3 - 0x80)
          if 0x10000 ≤ v ∧ v < 0x110000 then some (v, r3) else none
        | none => none
      | none => none
    | none => none
  else none

/-- Model of percent-decoding as performed by query-string parsing
(`decodeURIComponent`): `%`-escapes are decoded as UTF-8 byte sequences,
other characters stand for themselves; malformed input yields `none`.  The
fuel argument (one unit per decoded character, initialized to the input
length) only drives the structural recursion and never runs out. -/
def decodeAux : Nat → Str → Option Str
  | 0, s => if s.isEmpty then some [] else none
  | _ + 1, [] => some []
  | fuel + 1, c :: rest =>
    if c = '%' then
      match rest with
      | h1 :: h2 :: r =>
        (match hex2 h1 h2 with
         | some b0 =>
           (match decodeSeq b0 r with
            | some (v, r2) => (decodeAux fuel r2).map (Char.ofNat v :: ·)
            | none => none)
         | none => none)
      | _ => none
    else (decodeAux fuel rest).map (c :: ·)

/-- Model of `decodeURIComponent` (see `decodeAux`). -/
def decodeURIComponent (s : Str) : Option Str := decodeAux s.length s

/-! ## Model of the WHATWG `new URL(input, base)` platform primitive

This models the platform URL parser (not repository code) for the
hierarchical ("special"-scheme) URLs the proxy manipulates: scheme parsing,
authority (userinfo, host lowercasing, port with default elision), path
splitting on `/` and `\`, dot-segment normalization, percent-encoding of the
path/query/fragment encode sets, relative-reference resolution against a
base, and serialization (`href`).  Unknown schemes parse as opaque-path URLs
whose remainder is kept verbatim.  Out of scope (never exercised here):
IPv6/IPv4 host canonicalization, IDNA, and `file` drive-letter handling.
`none` models a thrown `TypeError`. -/

/-- ASCII letter. -/
def isAsciiAlpha (c : Char) : Bool :=
  let v := c.toNat
  (65 ≤ v && v ≤ 90) || (97 ≤ v && v ≤ 122)

/-- ASCII digit. -/
def isAsciiDigit (c : Char) : Bool :=
  let v := c.toNat
  48 ≤ v && v ≤ 57

/-- Characters allowed after the first character of a URL scheme. -/
def isSchemeChar (c : Char) : Bool :=
  isAsciiAlpha c || isAsciiDigit c || c = '+' || c = '-' || c = '.'

/-- ASCII lowercasing of one character. -/
def lowerChar (c : Char) : Char :=
  if 65 ≤ c.toNat ∧ c.toNat ≤ 90 then Char.ofNat (c.toNat + 32) else c

/-- Scheme scan: consume scheme characters up to `:`. -/
def schemeAux : Str → Str → Option (Str × Str)
  | acc, ':' :: rest => some (acc.reverse, rest)
  | acc, c :: rest => if isSchemeChar c then schemeAux (lowerChar c :: acc) rest else none
  | _, [] => none

/-- Parse a leading `scheme:`; returns the lowercased scheme and remainder. -/
def parseSchemeFull : Str → Option (Str × Str)
  | c :: rest => if isAsciiAlpha c then schemeAux [lowerChar c] rest else none
  | [] => none

/-- The WHATWG special schemes. -/
def specialSchemes : List Str :=
  [str "http", str "https", str "ws", str "wss", str "ftp", str "file"]

/-- Default port of a special scheme. -/
def defaultPortOf (sch : Str) : Option Nat :=
  if sch = str "http" then some 80
  else if sch = str "https" then some 443
  else if sch = str "ws" then some 80
  else if sch = str "wss" then some 443
  else if sch = str "ftp" then some 21
  else none

/-- Input preprocessing of the URL parser: strip leading/trailing C0
controls and spaces, remove all tabs and newlines. -/
def preprocess (s : Str) : Str :=
  (((s.dropWhile (fun c => c.toNat ≤ 32)).reverse.dropWhile
      (fun c => c.toNat ≤ 32)).reverse).filter
    (fun c => !(c.toNat = 9 || c.toNat = 10 || c.toNat = 13))

/-- Code points forbidden in a (non-IPv6) host. -/
def isForbiddenHost (c : Char) : Bool :=
  c.toNat ≤ 32 || c = '#' || c = '/' || c = ':' || c = '<' || c = '>' ||
  c = '?' || c = '@' || c = '[' || c = ']' || c = '^' || c = '|' ||
  c = Char.ofNat 92

/-- A parsed special-scheme URL record. -/
structure SpecialURL where
  scheme : Str
  userinfo : Option Str
  host : Str
  port : Option Nat
  segs : List Str
  query : Option Str
  frag : Option Str
deriving Repr, DecidableEq

/-- A parsed URL: hierarchical special URL, or opaque remainder. -/
inductive JSURL where
  | special (u : SpecialURL)
  | opq (scheme rest : Str)
deriving Repr, DecidableEq

/-- Path-encode set of the URL serializer. -/
def inPathSet (c : Char) : Bool :=
  c.toNat < 32 || c.toNat > 126 || c = ' ' || c = Char.ofNat 34 || c = '<' ||
  c = '>' || c = Char.ofNat 96 || c = '{' || c = '}'

/-- Query-encode set (special URLs). -/
def inQuerySet (c : Char) : Bool :=
  c.toNat < 32 || c.toNat > 126 || c = ' ' || c = Char.ofNat 34 || c = '<' ||
  c = '>' || c = '#' || c = Char.ofNat 39

/-- Fragment-encode set. -/
def inFragSet (c : Char) : Bool :=
  c.toNat < 32 || c.toNat > 126 || c = ' ' || c = Char.ofNat 34 || c = '<' ||
  c = '>' || c = Char.ofNat 96

/-- Percent-encode the characters of `s` that lie in the set `p`. -/
def encodeSet (p : Char → Bool) (s : Str) : Str :=
  (s.map (fun c => if p c then pctEncodeChar c else [c])).flatten

/-- Split a path string at `/` and `\` separators. -/
def splitSlashes : Str → List Str
  | [] => [[]]
  | c :: rest =>
    if c = '/' || c = Char.ofNat 92 then ([] : Str) :: splitSlashes rest
    else consHead c (splitSlashes rest)

/-- Raw segments of a path component (one leading slash stripped). -/
def segsOf (p : Str) : List Str :=
  match p with
  | [] => []
  | c :: rest =>
    if c = '/' || c = Char.ofNat 92 then splitSlashes rest else splitSlashes p

/-- Dot-segment normalization: `..` shortens the path, `.` is skipped; a
trailing dot segment contributes a trailing empty segment. -/
def dotNormAux : List Str → List Str → List Str
  | acc, [] => acc.reverse
  | acc, seg :: rest =>
    if seg = str ".." then
      if rest.isEmpty then (([] : Str) :: acc.tail).reverse
      else dotNormAux acc.tail rest
    else if seg = str "." then
      if rest.isEmpty then (([] : Str) :: acc).reverse
      else dotNormAux acc rest
    else dotNormAux (seg :: acc) rest

/-- Dot-segment normalization of a segment list. -/
def dotNorm (segs : List Str) : List Str := dotNormAux [] segs

/-- Split at the first occurrence of `c`; the second component is the
remainder after `c` when present. -/
def splitFirst (s : Str) (c : Char) : Str × Option Str :=
  let a := s.takeWhile (fun x => x != c)
  if a.length = s.length then (s, none) else (a, some (s.drop (a.length + 1)))

/-- Parse path + query + fragment of the remainder after an authority. -/
def parsePQF (rest : Str) : List Str × Option Str × Option Str :=
  let (beforeFrag, f) := splitFirst rest '#'
  let (pathPart, q) := splitFirst beforeFrag '?'
  ((dotNorm (segsOf pathPart)).map (encodeSet inPathSet),
    q.map (encodeSet inQuerySet), f.map (encodeSet inFragSet))

/-- Digits-only string to a number. -/
def digitsToNat? (s : Str) : Option Nat :=
  s.foldl
    (fun acc c =>
      match acc with
      | some a => if isAsciiDigit c then some (a * 10 + (c.toNat - 48)) else none
      | none => none)
    (some 0)

/-- Split an authority at its last `@` into userinfo and host-port. -/
def splitAtLastAt (auth : Str) : Option Str × Str :=
  if auth.contains '@' then
    let r := auth.reverse
    let hostRev := r.takeWhile (fun c => c != '@')
    (some ((r.drop (hostRev.length + 1)).reverse), hostRev.reverse)
  else (none, auth)

/-- Parse authority, path, query and fragment of a special-scheme URL whose
input starts at the authority. -/
def parseAuthority (sch : Str) (s : Str) : Option SpecialURL :=
  let auth := s.takeWhile
    (fun c => !(c = '/' || c = Char.ofNat 92 || c = '?' || c = '#'))
  let rest := s.drop auth.length
  let (ui, hostport) := splitAtLastAt auth
  let hostRaw := hostport.takeWhile (fun c => c != ':')
  let portPart := hostport.drop hostRaw.length
  if hostRaw.isEmpty && sch ≠ str "file" then none
  else if hostRaw.any isForbiddenHost then none
  else
    let portOk : Option (Option Nat) :=
      match portPart with
      | [] => some none
      | _ :: ds =>
        if ds.isEmpty then some none
        else match digitsToNat? ds with
          | some n =>
            if n > 65535 then none
            else if defaultPortOf sch = some n then some none else some (some n)
          | none => none
    match portOk with
    | none => none
    | some port =>
      let (segs, q, f) := parsePQF rest
      some { scheme := sch, userinfo := ui, host := hostRaw.map lowerChar,
             port := port, segs := segs, query := q, frag := f }

/-- Parse an absolute URL (models `new URL(x)` with no base). -/
def parseAbsJS (s : Str) : Option JSURL :=
  let s := preprocess s
  match parseSchemeFull s with
  | none => none
  | some (sch, rest) =>
    if specialSchemes.contains sch then
      (parseAuthority sch
        (rest.dropWhile (fun c => c = '/' || c = Char.ofNat 92))).map .special
    else some (.opq sch rest)

/-- Serialize the path-segment list. -/
def pathSer (segs : List Str) : Str :=
  match segs with
  | [] => ['/']
  | _ => segs.flatMap (fun s => '/' :: s)

/-- Serialization (`href`) of a parsed URL. -/
def hrefOf : JSURL → Str
  | .special u =>
    u.scheme ++ str "://" ++
    (match u.userinfo with
     | some ui => ui ++ [Char.ofNat 64]
     | none => []) ++
    u.host ++
    (match u.port with
     | some p => ':' :: (Nat.repr p).data
     | none => []) ++
    pathSer u.segs ++
    (match u.query with
     | some q => '?' :: q
     | none => []) ++
    (match u.frag with
     | some f => '#' :: f
     | none => [])
  | .opq sch rest => sch ++ [':'] ++ rest

/-- Resolve a relative reference (no scheme of its own) against a parsed
special-scheme base. -/
def resolveRel (b : SpecialURL) (i : Str) : Option SpecialURL :=
  match i with
  | [] => some { b with frag := none }
  | c :: rest =>
    if c = '/' || c = Char.ofNat 92 then
      match rest with
      | c2 :: _ =>
        if c2 = '/' || c2 = Char.ofNat 92 then
          parseAuthority b.scheme
            (i.dropWhile (fun x => x = '/' || x = Char.ofNat 92))
        else
          let (segs, q, f) := parsePQF i
          some { b with segs := segs, query := q, frag := f }
      | [] => some { b with segs := [], query := none, frag := none }
    else if c = '?' then
      let (q, f) := splitFirst rest '#'
      some { b with query := some (encodeSet inQuerySet q),
                    frag := f.map (encodeSet inFragSet) }
    else if c = '#' then
      some { b with frag := some (encodeSet inFragSet rest) }
    else
      let (beforeFrag, f) := splitFirst i '#'
      let (pathPart, q) := splitFirst beforeFrag '?'
      let merged := b.segs.dropLast ++ splitSlashes pathPart
      some { b with segs := (dotNorm merged).map (encodeSet inPathSet),
                    query := q.map (encodeSet inQuerySet),
                    frag := f.map (encodeSet inFragSet) }

/-- Model of `new URL(input, base).href`: the base is parsed first (an
invalid base throws even for an absolute input); an input whose special
scheme equals the base scheme is treated as a relative reference. -/
def urlResolve (input base : Str) : Option Str :=
  match parseAbsJS base with
  | none => none
  | some bu =>
    let i := preprocess input
    match parseSchemeFull i with
    | some (sch, rest) =>
      if specialSchemes.contains sch then
        match bu with
        | .special b =>
          if sch = b.scheme then
            match rest with
            | c :: c2 :: _ =>
              if (c = '/' || c = Char.ofNat 92) && (c2 = '/' || c2 = Char.ofNat 92) then
                (parseAbsJS input).map hrefOf
              else (resolveRel b rest).map (hrefOf ∘ .special)
            | _ => (resolveRel b rest).map (hrefOf ∘ .special)
          else (parseAbsJS input).map hrefOf
        | .opq _ _ => (parseAbsJS input).map hrefOf
      else (parseAbsJS input).map hrefOf
    | none =>
      match bu with
      | .special b => (resolveRel b i).map (hrefOf ∘ .special)
      | .opq sch rest =>
        match i with
        | '#' :: f =>
          some (hrefOf (.opq sch (splitFirst rest '#').1) ++
            '#' :: encodeSet inFragSet f)
        | [] => some (hrefOf (.opq sch (splitFirst rest '#').1))
        | _ => none

/-! ## The playlist rewriter `processM3U8` (src/api/proxy.ts, lines 28–67) -/

/-- The literal `URI="` that guards and anchors the URI-attribute rewrite. -/
def uriMarker : Str := str "URI=\""

/-- Absolute URL of a quoted `URI="..."` value: kept verbatim when it starts
with `http`, otherwise resolved against the base path, falling back to the
verbatim value when resolution throws (lines 38–43). -/
def uriAbs (base v : Str) : Str :=
  if (str "http").isPrefixOf v then v
  else match urlResolve v base with
    | some h => h
    | none => v

/-- The global regex replace
`line.replace(/URI="([^"]+)"/g, ...)` of lines 37–45: leftmost
non-overlapping matches of `URI="` followed by one or more non-quote
characters and a closing quote; each match is replaced by
`URI="<baseUrl>?url=<encodeURIComponent(abs)>"`. -/
def uriReplaceAux (baseUrl base : Str) : Nat → Str → Str
  | 0, s => s
  | _ + 1, [] => []
  | fuel + 1, s@(c :: t) =>
    if uriMarker.isPrefixOf s then
      let rest := s.drop 5
      let v := rest.takeWhile (fun x => x != Char.ofNat 34)
      if v.isEmpty then c :: uriReplaceAux baseUrl base fuel t
      else if (rest.drop v.length).isEmpty then c :: uriReplaceAux baseUrl base fuel t
      else
        uriMarker ++ baseUrl ++ str "?url=" ++
          encodeURIComponent (uriAbs base v) ++ [Char.ofNat 34] ++
          uriReplaceAux baseUrl base fuel (rest.drop (v.length + 1))
    else c :: uriReplaceAux baseUrl base fuel t

/-- The global regex replace as called by the source; the fuel (one unit per
scan position, initialized to the line length) only drives the structural
recursion and never runs out, since every step consumes at least one
character. -/
def uriReplace (baseUrl base : Str) (s : Str) : Str :=
  uriReplaceAux baseUrl base s.length s

/-- Absolute URL of a segment line (lines 52–58): verbatim when it starts
with `http`, upgraded with `https:` when scheme-relative, otherwise resolved
against the base path; `none` models the thrown resolution error. -/
def segmentAbs (base trim : Str) : Option Str :=
  if (str "http").isPrefixOf trim then some trim
  else if (str "//").isPrefixOf trim then some (str "https:" ++ trim)
  else urlResolve trim base

/-- One line of the rewriter's `lines.map` callback (lines 32–65). -/
def processLine (baseUrl base : Str) (line : Str) : Str :=
  if containsSub line uriMarker then uriReplace baseUrl base line
  else
    if jsTrim line ≠ [] ∧ ¬ (str "#").isPrefixOf (jsTrim line) ∧
        ¬ baseUrl.isPrefixOf (jsTrim line) then
      match segmentAbs base (jsTrim line) with
      | some abs => baseUrl ++ str "?url=" ++ encodeURIComponent abs
      | none => line
    else line

/-- `processM3U8(content, baseUrl, targetUrl)` (lines 28–67). -/
def processM3U8 (content baseUrl targetUrl : Str) : Str :=
  joinNL ((splitLines content).map (processLine baseUrl (basePath targetUrl)))

/-! ## The request handler (src/api/proxy.ts, lines 3–26 and 69–162) -/

/-- `CORS_HEADERS` (lines 3–8). -/
def CORS_HEADERS : List (Str × Str) :=
  [(str "Access-Control-Allow-Origin", str "*"),
   (str "Access-Control-Allow-Methods", str "GET, POST, OPTIONS"),
   (str "Access-Control-Allow-Headers", str "Content-Type, Range, Authorization"),
   (str "Access-Control-Expose-Headers", str "Content-Length, Content-Range")]

/-- `DOMAIN_HEADERS` (lines 11–19), in object insertion order. -/
def DOMAIN_HEADERS : List (Str × List (Str × Str)) :=
  [(str "kwikie.ru",
      [(str "origin", str "https://kwik.si"), (str "referer", str "https://kwik.si/")]),
   (str "krussdomi.com",
      [(str "origin", str "https://hls.krussdomi.com"),
       (str "referer", str "https://hls.krussdomi.com/")]),
   (str "megacloud.blog",
      [(str "origin", str "https://megacloud.blog"),
       (str "referer", str "https://megacloud.blog/")]),
   (str "megacloud.club",
      [(str "origin", str "https://megacloud.club"),
       (str "referer", str "https://megacloud.club/")]),
   (str "vmeas.cloud",
      [(str "origin", str "https://vidmoly.to"), (str "referer", str "https://vidmoly.to/")]),
   (str "embed.su",
      [(str "origin", str "https://embed.su"), (str "referer", str "https://embed.su/")]),
   (str "akamaized.net",
      [(str "origin", str "https://bl.krussdomi.com"),
       (str "referer", str "https://bl.krussdomi.com/")])]

/-- The `for`-loop of `getDomainHeaders` (lines 21–26): first entry whose
domain substring occurs in the hostname; empty mapping otherwise. -/
def getDomainHeadersAux (hostname : Str) : List (Str × List (Str × Str)) → List (Str × Str)
  | [] => []
  | (domain, headers) :: rest =>
    if containsSub hostname domain then headers
    else getDomainHeadersAux hostname rest

/-- `getDomainHeaders(hostname)` (lines 21–26). -/
def getDomainHeaders (hostname : Str) : List (Str × Str) :=
  getDomainHeadersAux hostname DOMAIN_HEADERS

/-- The inbound request: method, the `url` query value, the `Host` header,
and the optional `Range` header. -/
structure Req where
  method : Str
  queryUrl : Option Str
  host : Str
  range : Option Str
deriving Repr, DecidableEq

/-- Outcome of the upstream `fetch`: a response (status, headers with
lowercase names, body), or a thrown error with its message. -/
inductive Outcome where
  | ok (status : Nat) (headers : List (Str × Str)) (body : Str)
  | err (msg : Str)
deriving Repr, DecidableEq

/-- The upstream request the handler issues: URL, method, headers. -/
structure FetchSpec where
  url : Str
  method : Str
  headers : List (Str × Str)
deriving Repr, DecidableEq

/-- Body of an outbound response. -/
inductive Body where
  | empty
  | text (s : Str)
  | json (fields : List (Str × Str))
deriving Repr, DecidableEq

/-- The outbound response: status, headers in the order they are set, body. -/
structure Resp where
  status : Nat
  headers : List (Str × Str)
  body : Body
deriving Repr, DecidableEq

/-- First value bound to a header name. -/
def lookupH (k : Str) : List (Str × Str) → Option Str
  | [] => none
  | (k2, v) :: rest => if k2 = k then some v else lookupH k rest

/-- The 400 response of lines 83–91. -/
def missingUrlResp (req : Req) : Resp :=
  { status := 400,
    headers := [(str "Content-Type", str "application/json")] ++ CORS_HEADERS,
    body := .json
      [(str "error", str "Missing url parameter"),
       (str "usage", str "Add ?url=https://example.com/video.m3u8"),
       (str "example",
        str "https://" ++ req.host ++ str "/api/proxy?url=https://example.com/video.m3u8")] }

/-- The 500 response of the `catch` block, lines 150–160. -/
def proxyErrorResp (targetUrl msg : Str) : Resp :=
  { status := 500,
    headers := [(str "Content-Type", str "application/json")] ++ CORS_HEADERS,
    body := .json
      [(str "error", str "Proxy request failed"),
       (str "message", if msg.isEmpty then str "Unknown error" else msg),
       (str "target", targetUrl)] }

/-- Hostname of a parsed URL (`url.hostname`); empty for opaque-path URLs. -/
def hostnameOf : JSURL → Str
  | .special u => u.host
  | .opq _ _ => []

/-- The fixed defaults of the upstream request headers (lines 97–102). -/
def defaultFetchHeaders : List (Str × Str) :=
  [(str "User-Agent", str "Mozilla/5.0 (Windows NT 10.0; Win64; x64) AppleWebKit/537.36"),
   (str "Accept", str "*/*"),
   (str "Accept-Language", str "en-US,en;q=0.9")]

/-- The playlist classification of lines 117–118:
`targetUrl.endsWith('.m3u8') || contentType?.includes('mpegurl')`. -/
def isM3U8 (targetUrl : Str) (contentType : Option Str) : Bool :=
  (str ".m3u8").isSuffixOf targetUrl ||
  (match contentType with
   | some ct => containsSub ct (str "mpegurl")
   | none => false)

/-- Optional forwarded header. -/
def fwdH (name : Str) (v : Option Str) : List (Str × Str) :=
  match v with
  | some x => [(name, x)]
  | none => []

/-- The handler (lines 69–162) as a pure function of the inbound request and
the upstream fetch outcome.  The first component records the upstream request
issued (`none` when the upstream is never contacted); the second is the
outbound response. -/
def handler (req : Req) (out : Outcome) : Option FetchSpec × Resp :=
  if req.method = str "OPTIONS" then
    (none, { status := 204, headers := CORS_HEADERS, body := .empty })
  else
    match req.queryUrl with
    | none => (none, missingUrlResp req)
    | some targetUrl =>
      if targetUrl.isEmpty then (none, missingUrlResp req)
      else
        match parseAbsJS targetUrl with
        | none => (none, proxyErrorResp targetUrl (str "Invalid URL"))
        | some u =>
          let headers := defaultFetchHeaders ++ getDomainHeaders (hostnameOf u)
          let headers :=
            match req.range with
            | some r => if r.isEmpty then headers else headers ++ [(str "Range", r)]
            | none => headers
          let spec : FetchSpec :=
            { url := targetUrl,
              method := if req.method.isEmpty then str "GET" else req.method,
              headers := headers }
          match out with
          | .err msg => (some spec, proxyErrorResp targetUrl msg)
          | .ok status respHeaders bodyText =>
            let contentType := lookupH (str "content-type") respHeaders
            if isM3U8 targetUrl contentType then
              let baseUrl := str "https://" ++ req.host ++ str "/api/proxy"
              (some spec,
                { status := 200,
                  headers := [(str "Content-Type", str "application/vnd.apple.mpegurl")] ++
                    CORS_HEADERS ++ [(str "Cache-Control", str "public, max-age=300")],
                  body := .text (processM3U8 bodyText baseUrl targetUrl) })
            else
              (some spec,
                { status := status,
                  headers := CORS_HEADERS ++
                    fwdH (str "Content-Type") contentType ++
                    fwdH (str "Content-Length") (lookupH (str "content-length") respHeaders) ++
                    fwdH (str "Content-Range") (lookupH (str "content-range") respHeaders) ++
                    fwdH (str "Accept-Ranges") (lookupH (str "accept-ranges") respHeaders),
                  body := .text bodyText })

/-! ## Claim-side definitions (refinement comparisons)

These definitions follow the wording of spec claims, to be compared with the
definitions embedded from the source. -/

/-- The path component of a parsed URL. -/
def urlPathOf : JSURL → Str
  | .special u => pathSer u.segs
  | .opq _ rest => (splitFirst (splitFirst rest '#').1 '?').1

/-- Claim C6's classifier, as worded by the spec: the target URL's PATH ends
in `.m3u8`, or the declared content type contains `mpegurl`. -/
def claimIsPlaylist (targetUrl : Str) (contentType : Option Str) : Bool :=
  (match parseAbsJS targetUrl with
   | some u => (str ".m3u8").isSuffixOf (urlPathOf u)
   | none => false) ||
  (match contentType with
   | some ct => containsSub ct (str "mpegurl")
   | none => false)

/-- A well-formed absolute URL reference: a URL scheme followed by `:`
(claims C2 and C3 say absolute URLs pass through the rewriter unchanged). -/
def isAbsoluteURL (s : Str) : Bool := (parseSchemeFull s).isSome

/-- Claim C2's description of the absolute URL of a segment line: absolute
URLs pass through unchanged, scheme-relative URLs are prefixed with
`https:`, all other forms are resolved against the base path (`none` models
a resolution failure). -/
def claimSegmentAbs (base trim : Str) : Option Str :=
  if isAbsoluteURL trim then some trim
  else if (str "//").isPrefixOf trim then some (str "https:" ++ trim)
  else urlResolve trim base

/-- Remainder of `s` after the first occurrence of `pat` (the "portion after
`pat`" of claim C10). -/
def afterFirst : Str → Str → Option Str
  | s@(_ :: t), pat => if pat.isPrefixOf s then some (s.drop pat.length) else afterFirst t pat
  | [], pat => if pat.isEmpty then some [] else none

/-- A playlist line decomposed into its `URI="..."` occurrences: for each
pair `(a, v)` the text `a` precedes an occurrence `URI="v"`, and `tail`
follows the last occurrence.  (Claim C3's "line containing one or more
double-quoted `URI="..."` attributes".) -/
def uriSpecLine : List (Str × Str) → Str → Str
  | [], tail => tail
  | (a, v) :: rest, tail =>
    a ++ (uriMarker ++ (v ++ Char.ofNat 34 :: uriSpecLine rest tail))

/-- The same line with every `URI="..."` occurrence substituted by
`URI="<proxyBaseUrl>?url=<percent-encoded-absolute-url>"`, as claim C3 words
the rewrite; all characters outside the occurrences are kept unchanged. -/
def uriSpecRewritten (baseUrl base : Str) : List (Str × Str) → Str → Str
  | [], tail => tail
  | (a, v) :: rest, tail =>
    a ++ (uriMarker ++ (baseUrl ++ (str "?url=" ++
      (encodeURIComponent (uriAbs base v) ++
        Char.ofNat 34 :: uriSpecRewritten baseUrl base rest tail))))

/-- The characters that can occur in `encodeURIComponent` output: unreserved
characters, `%`, and uppercase hex digits. -/
def encCharOK (x : Char) : Prop :=
  isUriUnreserved x = true ∨ x.toNat = 37 ∨ (48 ≤ x.toNat ∧ x.toNat ≤ 57) ∨
  (65 ≤ x.toNat ∧ x.toNat ≤ 70)

instance (x : Char) : Decidable (encCharOK x) := by
  unfold encCharOK
  infer_instance

/-! ## Theorems -/

/-- `lookupH` distributes over append, preferring the first list. -/
theorem lookupH_append (k : Str) (a b : List (Str × Str)) :
    lookupH k (a ++ b) =
      (match lookupH k a with
       | some v => some v
       | none => lookupH k b) := by
  induction a with
  | nil => simp [lookupH]
  | cons e rest ih =>
    simp only [List.cons_append, lookupH]
    split <;> simp [ih]

/-- The first-match loop of `getDomainHeaders` agrees with `List.find?`. -/
theorem getDomainHeadersAux_eq_find (h : Str) (l : List (Str × List (Str × Str))) :
    getDomainHeadersAux h l =
      (match l.find? (fun e => containsSub h e.1) with
       | some e => e.2
       | none => []) := by
  induction l with
  | nil => rfl
  | cons e rest ih =>
    simp only [getDomainHeadersAux, List.find?]
    by_cases hc : containsSub h e.1 <;> simp [hc, ih]
/-- C7: `getDomainHeaders` scans the fixed domain table in its fixed order
and returns the header pair of the first entry whose domain substring occurs
in the hostname, the empty mapping when none matches; it is total.  In
particular `hls.krussdomi.com` picks the `krussdomi.com` entry and
`unknown.example.com` yields the empty mapping. -/
theorem getDomainHeaders_first_substring_match :
    (∀ h : Str, getDomainHeaders h =
      (match DOMAIN_HEADERS.find? (fun e => containsSub h e.1) with
       | some e => e.2
       | none => [])) ∧
    getDomainHeaders (str "hls.krussdomi.com") =
      [(str "origin", str "https://hls.krussdomi.com"),
       (str "referer", str "https://hls.krussdomi.com/")] ∧
    getDomainHeaders (str "unknown.example.com") = [] := by
  refine ⟨fun h => getDomainHeadersAux_eq_find h DOMAIN_HEADERS, by decide, by decide⟩

/-- C5: every response the handler produces — preflight, client error,
rewritten playlist, forwarded content and upstream error alike — carries the
full permissive CORS header set. -/
theorem handler_always_cors (req : Req) (out : Outcome) :
    CORS_HEADERS ⊆ (handler req out).2.headers := by
  intro kv hkv
  unfold handler missingUrlResp proxyErrorResp
  repeat' split
  all_goals try rw [apply_ite (fun p : Option FetchSpec × Resp => p.2.headers)]
  all_goals try split
  all_goals simp_all [List.mem_append]

/-- C4 counterexample: a request whose `url` query value is present but not
a well-formed URL is answered with status 500 (the `new URL` throw is caught
by the generic handler), not with the 400 the claim requires; no upstream
request is issued. -/
theorem handler_malformed_url_not_400 :
    (handler ⟨str "GET", some (str "not-a-url"), str "proxy.example", none⟩
        (.ok 200 [] [])).2.status = 500 ∧
    ¬ (handler ⟨str "GET", some (str "not-a-url"), str "proxy.example", none⟩
        (.ok 200 [] [])).2.status = 400 ∧
    (handler ⟨str "GET", some (str "not-a-url"), str "proxy.example", none⟩
        (.ok 200 [] [])).1 = none := by
  refine ⟨rfl, by decide, rfl⟩

/-- C4 (amended): for a non-OPTIONS request, a missing (or empty) `url`
query value yields a 400 JSON response with an `error` field and no upstream
request; a present but unparseable `url` yields a 500 JSON response with an
`error` field and likewise no upstream request. -/
theorem handler_bad_input_no_fetch (req : Req) (out : Outcome)
    (hm : req.method ≠ str "OPTIONS") :
    (req.queryUrl = none ∨ req.queryUrl = some [] →
      (handler req out).2.status = 400 ∧ (handler req out).1 = none ∧
      ∃ fields, (handler req out).2.body = .json fields ∧
        lookupH (str "error") fields = some (str "Missing url parameter")) ∧
    (∀ t, req.queryUrl = some t → t ≠ [] → parseAbsJS t = none →
      (handler req out).2.status = 500 ∧ (handler req out).1 = none ∧
      ∃ fields, (handler req out).2.body = .json fields ∧
        lookupH (str "error") fields = some (str "Proxy request failed")) := by
  constructor
  · intro hq
    unfold handler
    rcases hq with hq | hq <;>
      simp [hq, hm, missingUrlResp, lookupH, List.isEmpty_iff]
  · intro t ht hne hparse
    unfold handler
    simp [ht, hm, hne, hparse, proxyErrorResp, lookupH, List.isEmpty_iff]

/-- Witness for C4 (amended): instantiated at a request with no `url` value
and at a request with the malformed value `not-a-url`. -/
theorem handler_bad_input_no_fetch_witness :
    (handler ⟨str "GET", none, str "proxy.example", none⟩ (.ok 200 [] [])).2.status = 400 ∧
    (handler ⟨str "GET", some (str "not-a-url"), str "proxy.example", none⟩
        (.ok 200 [] [])).2.status = 500 := by
  have h1 := handler_bad_input_no_fetch
    ⟨str "GET", none, str "proxy.example", none⟩ (.ok 200 [] []) (by decide)
  have h2 := handler_bad_input_no_fetch
    ⟨str "GET", some (str "not-a-url"), str "proxy.example", none⟩ (.ok 200 [] []) (by decide)
  exact ⟨(h1.1 (Or.inl rfl)).1, (h2.2 (str "not-a-url") rfl (by decide) (by decide)).1⟩

/-- No domain-header entry binds a `Range` header. -/
theorem lookupH_range_domain (hn : Str) :
    lookupH (str "Range") (getDomainHeaders hn) = none := by
  rw [show getDomainHeaders hn = getDomainHeadersAux hn DOMAIN_HEADERS from rfl,
    getDomainHeadersAux_eq_find]
  rcases hf : DOMAIN_HEADERS.find? (fun e => containsSub hn e.1) with _ | e
  · rw [hf]
    rfl
  · have he := List.mem_of_find?_eq_some hf
    rw [hf]
    fin_cases he <;> rfl

/-- C6 counterexample: for the target `https://a.com/x.m3u8?t=1` (whose URL
path ends in `.m3u8` but whose full URL string does not) and a non-playlist
content type, the claim's classifier says "playlist" while the code's says
"opaque", and the handler indeed forwards the body unrewritten. -/
theorem classify_path_vs_string_cex :
    claimIsPlaylist (str "https://a.com/x.m3u8?t=1") (some (str "video/mp2t")) = true ∧
    isM3U8 (str "https://a.com/x.m3u8?t=1") (some (str "video/mp2t")) = false ∧
    (handler ⟨str "GET", some (str "https://a.com/x.m3u8?t=1"), str "proxy.example", none⟩
        (.ok 200 [(str "content-type", str "video/mp2t")] (str "seg1.ts"))).2.body =
      .text (str "seg1.ts") := by
  refine ⟨by decide, by decide, by decide⟩

/-- C6 (amended): a fetched response is rewritten as a playlist if and only
if the full target URL string ends in `.m3u8` or the upstream content type
contains `mpegurl` (the code's `isM3U8` test); every other response is
forwarded with its upstream status and its body unmodified. -/
theorem handler_classify (req : Req) (t : Str) (status : Nat)
    (rh : List (Str × Str)) (body : Str)
    (hm : req.method ≠ str "OPTIONS") (hq : req.queryUrl = some t) (hne : t ≠ [])
    (hp : (parseAbsJS t).isSome) :
    (isM3U8 t (lookupH (str "content-type") rh) = true →
      (handler req (.ok status rh body)).2.status = 200 ∧
      (handler req (.ok status rh body)).2.body =
        .text (processM3U8 body (str "https://" ++ req.host ++ str "/api/proxy") t)) ∧
    (isM3U8 t (lookupH (str "content-type") rh) = false →
      (handler req (.ok status rh body)).2.status = status ∧
      (handler req (.ok status rh body)).2.body = .text body) := by
  rcases Option.isSome_iff_exists.mp hp with ⟨u, hu⟩
  constructor <;> intro h <;>
    simp [handler, hm, hq, List.isEmpty_iff, hne, hu, h]

/-- Witness for C6 (amended): a `.m3u8` target is rewritten; a `.ts` target
with a non-playlist content type is forwarded unmodified. -/
theorem handler_classify_witness :
    (handler ⟨str "GET", some (str "https://a.com/p/i.m3u8"), str "h.example", none⟩
        (.ok 200 [] (str "#EXTM3U"))).2.status = 200 ∧
    (handler ⟨str "GET", some (str "https://a.com/p/s.ts"), str "h.example", none⟩
        (.ok 200 [(str "content-type", str "video/mp2t")] (str "x"))).2.body =
      .text (str "x") := by
  have h1 := handler_classify
    ⟨str "GET", some (str "https://a.com/p/i.m3u8"), str "h.example", none⟩
    (str "https://a.com/p/i.m3u8") 200 [] (str "#EXTM3U")
    (by decide) rfl (by decide) (by decide)
  have h2 := handler_classify
    ⟨str "GET", some (str "https://a.com/p/s.ts"), str "h.example", none⟩
    (str "https://a.com/p/s.ts") 200 [(str "content-type", str "video/mp2t")] (str "x")
    (by decide) rfl (by decide) (by decide)
  exact ⟨(h1.1 (by decide)).1, (h2.2 (by decide)).2⟩

/-- C8 counterexample: a ranged request for a `.m3u8` target whose upstream
answers 206 is answered by the proxy with status 200 (the playlist branch
forces the status) and without the upstream `Content-Range` header, contrary
to the claim's unconditional preservation. -/
theorem range_206_playlist_cex :
    (handler ⟨str "GET", some (str "https://a.com/v.m3u8"), str "proxy.example",
        some (str "bytes=0-1023")⟩
      (.ok 206 [(str "content-range", str "bytes 0-1023/2048")] (str "x"))).2.status = 200 ∧
    ¬ (handler ⟨str "GET", some (str "https://a.com/v.m3u8"), str "proxy.example",
        some (str "bytes=0-1023")⟩
      (.ok 206 [(str "content-range", str "bytes 0-1023/2048")] (str "x"))).2.status = 206 ∧
    lookupH (str "Content-Range")
      (handler ⟨str "GET", some (str "https://a.com/v.m3u8"), str "proxy.example",
          some (str "bytes=0-1023")⟩
        (.ok 206 [(str "content-range", str "bytes 0-1023/2048")] (str "x"))).2.headers =
      none := by
  refine ⟨by decide, by decide, by decide⟩

/-- C8 (amended): an inbound non-empty `Range` header is forwarded verbatim
on the upstream fetch; and when the upstream answers 206 and the response is
not classified as a playlist, the proxy preserves status 206 and forwards
the upstream `Content-Range` header. -/
theorem handler_range_forward (req : Req) (out : Outcome) (t r : Str)
    (hm : req.method ≠ str "OPTIONS") (hq : req.queryUrl = some t) (hne : t ≠ [])
    (hp : (parseAbsJS t).isSome) (hr : req.range = some r) (hrne : r ≠ []) :
    (∃ spec, (handler req out).1 = some spec ∧
      lookupH (str "Range") spec.headers = some r) ∧
    (∀ rh body, out = .ok 206 rh body →
      isM3U8 t (lookupH (str "content-type") rh) = false →
      (handler req out).2.status = 206 ∧
      ∀ cr, lookupH (str "content-range") rh = some cr →
        (str "Content-Range", cr) ∈ (handler req out).2.headers) := by
  rcases Option.isSome_iff_exists.mp hp with ⟨u, hu⟩
  have hlook : ∀ hn : Str,
      lookupH (str "Range")
        (defaultFetchHeaders ++ getDomainHeaders hn ++ [(str "Range", r)]) = some r := by
    intro hn
    rw [List.append_assoc, lookupH_append]
    have h1 : lookupH (str "Range") defaultFetchHeaders = none := rfl
    rw [h1, lookupH_append, lookupH_range_domain]
    rfl
  constructor
  · have hspec : (handler req out).1 = some
        { url := t,
          method := if req.method.isEmpty then str "GET" else req.method,
          headers := defaultFetchHeaders ++ getDomainHeaders (hostnameOf u) ++
            [(str "Range", r)] } := by
      cases out with
      | err msg => simp [handler, hm, hq, List.isEmpty_iff, hne, hu, hr, hrne]
      | ok status rh body =>
        by_cases hM : isM3U8 t (lookupH (str "content-type") rh) = true <;>
          simp [handler, hm, hq, List.isEmpty_iff, hne, hu, hr, hrne, hM]
    exact ⟨_, hspec, hlook (hostnameOf u)⟩
  · intro rh body hout hM
    subst hout
    constructor
    · simp [handler, hm, hq, List.isEmpty_iff, hne, hu, hr, hrne, hM]
    · intro cr hcr
      simp [handler, hm, hq, List.isEmpty_iff, hne, hu, hr, hrne, hM, hcr, fwdH,
        List.mem_append]

/-- Witness for C8 (amended): a ranged `.ts` request with a 206 upstream. -/
theorem handler_range_forward_witness :
    (∃ spec,
      (handler ⟨str "GET", some (str "https://a.com/v.ts"), str "h.example",
          some (str "bytes=0-1023")⟩
        (.ok 206 [(str "content-range", str "bytes 0-1023/2048")] (str "x"))).1 = some spec ∧
      lookupH (str "Range") spec.headers = some (str "bytes=0-1023")) ∧
    (handler ⟨str "GET", some (str "https://a.com/v.ts"), str "h.example",
        some (str "bytes=0-1023")⟩
      (.ok 206 [(str "content-range", str "bytes 0-1023/2048")] (str "x"))).2.status = 206 := by
  have h := handler_range_forward
    ⟨str "GET", some (str "https://a.com/v.ts"), str "h.example", some (str "bytes=0-1023")⟩
    (.ok 206 [(str "content-range", str "bytes 0-1023/2048")] (str "x"))
    (str "https://a.com/v.ts") (str "bytes=0-1023")
    (by decide) rfl (by decide) (by decide) rfl (by decide)
  exact ⟨h.1, (h.2 _ _ rfl (by decide)).1⟩

/-- Validity of a character's scalar value, in `Nat` form. -/
theorem char_valid_nat (c : Char) :
    c.toNat < 0xD800 ∨ (0xDFFF < c.toNat ∧ c.toNat < 0x110000) := by
  have h := c.valid
  unfold UInt32.isValidChar Nat.isValidChar at h
  exact h

/-- Hex digits round-trip through `hexDigit`/`hexVal`. -/
theorem hexVal_hexDigit : ∀ n, n < 16 → hexVal (hexDigit n) = some n := by decide

/-- `hex2` inverts the two hex digits of a byte. -/
theorem hex2_pct (b : Nat) (hb : b < 256) :
    hex2 (hexDigit (b / 16)) (hexDigit (b % 16)) = some b := by
  have h0 : b / 16 * 16 + b % 16 = b := by omega
  simp [hex2, hexVal_hexDigit _ (show b / 16 < 16 by omega),
    hexVal_hexDigit _ (show b % 16 < 16 by omega), h0]

/-- `contByte` inverts `pctByte` on continuation bytes. -/
theorem contByte_pct (b : Nat) (h1 : 0x80 ≤ b) (h2 : b < 0xC0) (t : Str) :
    contByte (pctByte b ++ t) = some (b, t) := by
  have hshape : pctByte b ++ t = '%' :: hexDigit (b / 16) :: hexDigit (b % 16) :: t := by
    simp [pctByte]
  rw [hshape]
  simp [contByte, hex2_pct b (by omega), h1, h2]

/-- `contByte` only returns a suffix of its input. -/
theorem contByte_length (r : Str) (b : Nat) (r1 : Str) (h : contByte r = some (b, r1)) :
    r1.length ≤ r.length := by
  match r with
  | [] => cases h
  | [c] => cases h
  | [c, d] => cases h
  | c :: d :: e :: rest =>
    simp only [contByte] at h
    by_cases hc : c = '%'
    · rw [if_pos hc] at h
      rcases h2 : hex2 d e with _ | b2
      · simp only [h2] at h
        cases h
      · simp only [h2] at h
        by_cases hr : 0x80 ≤ b2 ∧ b2 < 0xC0
        · rw [if_pos hr] at h
          simp only [Option.some.injEq, Prod.mk.injEq] at h
          rw [← h.2]
          simp only [List.length_cons]
          omega
        · rw [if_neg hr] at h
          cases h
    · rw [if_neg hc] at h
      cases h

/-- `decodeSeq` only returns a suffix of its input. -/
theorem decodeSeq_length (b0 : Nat) (r : Str) (v : Nat) (r2 : Str)
    (h : decodeSeq b0 r = some (v, r2)) : r2.length ≤ r.length := by
  unfold decodeSeq at h
  split at h
  · simp only [Option.some.injEq, Prod.mk.injEq] at h
    rw [← h.2]
  · split at h
    · cases h
    · split at h
      · rcases hcb : contByte r with _ | ⟨b1, r1⟩
        · simp only [hcb] at h
          cases h
        · simp only [hcb, Option.some.injEq, Prod.mk.injEq] at h
          rw [← h.2]
          exact contByte_length r b1 r1 hcb
      · split at h
        · rcases hcb : contByte r with _ | ⟨b1, r1⟩
          · simp only [hcb] at h
            cases h
          · simp only [hcb] at h
            rcases hcb2 : contByte r1 with _ | ⟨b2, r2x⟩
            · simp only [hcb2] at h
              cases h
            · simp only [hcb2] at h
              split at h
              · simp only [Option.some.injEq, Prod.mk.injEq] at h
                rw [← h.2]
                exact le_trans (contByte_length r1 b2 r2x hcb2) (contByte_length r b1 r1 hcb)
              · cases h
        · split at h
          · rcases hcb : contByte r with _ | ⟨b1, r1⟩
            · simp only [hcb] at h
              cases h
            · simp only [hcb] at h
              rcases hcb2 : contByte r1 with _ | ⟨b2, r2x⟩
              · simp only [hcb2] at h
                cases h
              · simp only [hcb2] at h
                rcases hcb3 : contByte r2x with _ | ⟨b3, r3⟩
                · simp only [hcb3] at h
                  cases h
                · simp only [hcb3] at h
                  split at h
                  · simp only [Option.some.injEq, Prod.mk.injEq] at h
                    rw [← h.2]
                    exact le_trans (contByte_length r2x b3 r3 hcb3)
                      (le_trans (contByte_length r1 b2 r2x hcb2)
                        (contByte_length r b1 r1 hcb))
                  · cases h
          · cases h

/-- `decodeAux` does not depend on its fuel, given enough of it. -/
theorem decodeAux_fuel : ∀ f1 f2 s, s.length ≤ f1 → s.length ≤ f2 →
    decodeAux f1 s = decodeAux f2 s := by
  intro f1
  induction f1 with
  | zero =>
    intro f2 s h1 h2
    have hs : s = [] := List.eq_nil_of_length_eq_zero (Nat.le_zero.mp h1)
    subst hs
    cases f2 <;> rfl
  | succ f ih =>
    intro f2 s h1 h2
    cases s with
    | nil => cases f2 <;> rfl
    | cons c rest =>
      cases f2 with
      | zero => simp at h2
      | succ f2p =>
        simp only [decodeAux]
        by_cases hc : c = '%'
        · rw [if_pos hc, if_pos hc]
          match rest with
          | [] => rfl
          | [x] => rfl
          | x :: y :: r =>
            rcases hh : hex2 x y with _ | b0
            · simp [hh]
            · rcases hd : decodeSeq b0 r with _ | vr2
              · simp [hh, hd]
              · rcases vr2 with ⟨v, r2⟩
                have hr2 : r2.length ≤ r.length := decodeSeq_length b0 r v r2 hd
                have hl1 : r.length + 3 ≤ f + 1 := by simpa using h1
                have hl2 : r.length + 3 ≤ f2p + 1 := by simpa using h2
                simp only [hh, hd]
                rw [ih f2p r2 (by omega) (by omega)]
        · rw [if_neg hc, if_neg hc,
            ih f2p rest (by simpa using Nat.le_of_succ_le_succ (by simpa using h1))
              (by simpa using Nat.le_of_succ_le_succ (by simpa using h2))]

/-- Decoding a non-escape character keeps it. -/
theorem decodeAux_cons (c : Char) (hc : c ≠ '%') (t : Str) (fuel : Nat)
    (hf : t.length ≤ fuel) :
    decodeAux (fuel + 1) (c :: t) = (decodeURIComponent t).map (c :: ·) := by
  simp only [decodeAux, if_neg hc]
  rw [decodeAux_fuel fuel t.length t hf (le_refl _)]
  rfl

/-- `decodeSeq` inverts a two-byte UTF-8 encoding. -/
theorem decodeSeq_2byte (v : Nat) (h1 : 0x80 ≤ v) (h2 : v < 0x800) (t : Str) :
    decodeSeq (0xC0 + v / 64) (pctByte (0x80 + v % 64) ++ t) = some (v, t) := by
  have f1 : ¬ (0xC0 + v / 64 < 0x80) := by omega
  have f2 : ¬ (0xC0 + v / 64 < 0xC2) := by omega
  have f3 : 0xC0 + v / 64 < 0xE0 := by omega
  have hrec : (0xC0 + v / 64 - 0xC0) * 64 + (0x80 + v % 64 - 0x80) = v := by omega
  simp [decodeSeq, f1, f2, f3, contByte_pct (0x80 + v % 64) (by omega) (by omega), hrec]
  omega

/-- `decodeSeq` inverts a three-byte UTF-8 encoding. -/
theorem decodeSeq_3byte (v : Nat) (h1 : 0x800 ≤ v) (h2 : v < 0x10000)
    (hs : v < 0xD800 ∨ 0xE000 ≤ v) (t : Str) :
    decodeSeq (0xE0 + v / 4096)
      (pctByte (0x80 + v / 64 % 64) ++ (pctByte (0x80 + v % 64) ++ t)) = some (v, t) := by
  have f1 : ¬ (0xE0 + v / 4096 < 0x80) := by omega
  have f2 : ¬ (0xE0 + v / 4096 < 0xC2) := by omega
  have f3 : ¬ (0xE0 + v / 4096 < 0xE0) := by omega
  have f4 : 0xE0 + v / 4096 < 0xF0 := by omega
  have hrec : (0xE0 + v / 4096 - 0xE0) * 4096 + (0x80 + v / 64 % 64 - 0x80) * 64 +
      (0x80 + v % 64 - 0x80) = v := by omega
  have hcond : 0x800 ≤ v ∧ (v < 0xD800 ∨ 0xE000 ≤ v) := ⟨h1, hs⟩
  simp [decodeSeq, f1, f2, f3, f4,
    contByte_pct (0x80 + v / 64 % 64) (by omega) (by omega),
    contByte_pct (0x80 + v % 64) (by omega) (by omega), hrec, hcond]
  omega

/-- `decodeSeq` inverts a four-byte UTF-8 encoding. -/
theorem decodeSeq_4byte (v : Nat) (h1 : 0x10000 ≤ v) (h2 : v < 0x110000) (t : Str) :
    decodeSeq (0xF0 + v / 262144)
      (pctByte (0x80 + v / 4096 % 64) ++ (pctByte (0x80 + v / 64 % 64) ++
        (pctByte (0x80 + v % 64) ++ t))) = some (v, t) := by
  have f1 : ¬ (0xF0 + v / 262144 < 0x80) := by omega
  have f2 : ¬ (0xF0 + v / 262144 < 0xC2) := by omega
  have f3 : ¬ (0xF0 + v / 262144 < 0xE0) := by omega
  have f4 : ¬ (0xF0 + v / 262144 < 0xF0) := by omega
  have f5 : 0xF0 + v / 262144 < 0xF5 := by omega
  have hrec : (0xF0 + v / 262144 - 0xF0) * 262144 + (0x80 + v / 4096 % 64 - 0x80) * 4096 +
      (0x80 + v / 64 % 64 - 0x80) * 64 + (0x80 + v % 64 - 0x80) = v := by omega
  have hcond : 0x10000 ≤ v ∧ v < 0x110000 := ⟨h1, h2⟩
  simp [decodeSeq, f1, f2, f3, f4, f5,
    contByte_pct (0x80 + v / 4096 % 64) (by omega) (by omega),
    contByte_pct (0x80 + v / 64 % 64) (by omega) (by omega),
    contByte_pct (0x80 + v % 64) (by omega) (by omega), hrec, hcond]
  omega

/-- Decoding the percent-escape of one character prepends that character. -/
theorem decodeAux_pctEncodeChar (c : Char) (t : Str) (fuel : Nat) (hf : t.length ≤ fuel) :
    decodeAux (fuel + 1) (pctEncodeChar c ++ t) = (decodeURIComponent t).map (c :: ·) := by
  have hvalid := char_valid_nat c
  by_cases h1 : c.toNat < 0x80
  · have hsh : pctEncodeChar c ++ t =
        '%' :: hexDigit (c.toNat / 16) :: hexDigit (c.toNat % 16) :: t := by
      simp [pctEncodeChar, utf8Bytes, pctByte, h1]
    rw [hsh]
    simp only [decodeAux, if_pos rfl, hex2_pct c.toNat (by omega),
      decodeSeq, if_pos h1]
    rw [decodeAux_fuel fuel t.length t hf (le_refl _), Char.ofNat_toNat]
    rfl
  · by_cases h2 : c.toNat < 0x800
    · have hsh : pctEncodeChar c ++ t =
          '%' :: hexDigit ((0xC0 + c.toNat / 64) / 16) ::
            hexDigit ((0xC0 + c.toNat / 64) % 16) ::
            (pctByte (0x80 + c.toNat % 64) ++ t) := by
        simp [pctEncodeChar, utf8Bytes, pctByte, h1, h2]
      rw [hsh]
      simp only [decodeAux, if_pos rfl, hex2_pct (0xC0 + c.toNat / 64) (by omega),
        decodeSeq_2byte c.toNat (by omega) h2 t]
      rw [decodeAux_fuel fuel t.length t hf (le_refl _), Char.ofNat_toNat]
      rfl
    · by_cases h3 : c.toNat < 0x10000
      · have hsh : pctEncodeChar c ++ t =
            '%' :: hexDigit ((0xE0 + c.toNat / 4096) / 16) ::
              hexDigit ((0xE0 + c.toNat / 4096) % 16) ::
              (pctByte (0x80 + c.toNat / 64 % 64) ++ (pctByte (0x80 + c.toNat % 64) ++ t)) := by
          simp [pctEncodeChar, utf8Bytes, pctByte, h1, h2, h3]
        rw [hsh]
        simp only [decodeAux, if_pos rfl, hex2_pct (0xE0 + c.toNat / 4096) (by omega),
          decodeSeq_3byte c.toNat (by omega) h3 (by omega) t]
        rw [decodeAux_fuel fuel t.length t hf (le_refl _), Char.ofNat_toNat]
        rfl
      · have hsh : pctEncodeChar c ++ t =
            '%' :: hexDigit ((0xF0 + c.toNat / 262144) / 16) ::
              hexDigit ((0xF0 + c.toNat / 262144) % 16) ::
              (pctByte (0x80 + c.toNat / 4096 % 64) ++ (pctByte (0x80 + c.toNat / 64 % 64) ++
                (pctByte (0x80 + c.toNat % 64) ++ t))) := by
          simp [pctEncodeChar, utf8Bytes, pctByte, h1, h2, h3]
        rw [hsh]
        simp only [decodeAux, if_pos rfl, hex2_pct (0xF0 + c.toNat / 262144) (by omega),
          decodeSeq_4byte c.toNat (by omega) (by omega) t]
        rw [decodeAux_fuel fuel t.length t hf (le_refl _), Char.ofNat_toNat]
        rfl

/-- The percent-escape of a character is never empty. -/
theorem pctEncodeChar_ne_nil (c : Char) : pctEncodeChar c ≠ [] := by
  unfold pctEncodeChar utf8Bytes
  repeat' split
  all_goals simp [pctByte]

/-- Percent-decoding is a left inverse of `encodeURIComponent`. -/
theorem decode_encode (s : Str) :
    decodeURIComponent (encodeURIComponent s) = some s := by
  induction s with
  | nil => rfl
  | cons c cs ih =>
    have hstep : encodeURIComponent (c :: cs) =
        (if isUriUnreserved c then [c] else pctEncodeChar c) ++ encodeURIComponent cs := by
      simp [encodeURIComponent]
    by_cases hu : isUriUnreserved c
    · have hne : c ≠ '%' := by
        intro he
        rw [he] at hu
        exact absurd hu (by decide)
      rw [show decodeURIComponent (encodeURIComponent (c :: cs)) =
          decodeAux (encodeURIComponent (c :: cs)).length (encodeURIComponent (c :: cs))
        from rfl]
      rw [hstep, if_pos hu, List.singleton_append,
        show (c :: encodeURIComponent cs).length = (encodeURIComponent cs).length + 1
          from by simp,
        decodeAux_cons c hne _ _ (le_refl _), ih]
      rfl
    · have hnn : pctEncodeChar c ≠ [] := pctEncodeChar_ne_nil c
      have hpos : 0 < (pctEncodeChar c).length := List.length_pos.mpr hnn
      rw [show decodeURIComponent (encodeURIComponent (c :: cs)) =
          decodeAux (encodeURIComponent (c :: cs)).length (encodeURIComponent (c :: cs))
        from rfl]
      rw [hstep, if_neg hu]
      have hlen : (pctEncodeChar c ++ encodeURIComponent cs).length =
          ((pctEncodeChar c).length - 1 + (encodeURIComponent cs).length) + 1 := by
        simp [List.length_append]
        omega
      rw [hlen, decodeAux_pctEncodeChar c _ _ (by omega), ih]
      rfl

/-- A string without `\n` is a single chunk. -/
theorem splitNL_no_newline (l : Str) (h : '\n' ∉ l) : splitNL l = [l] := by
  induction l with
  | nil => rfl
  | cons c t ih =>
    have hc : c ≠ '\n' := fun he => h (he ▸ List.mem_cons_self c t)
    have ht : '\n' ∉ t := fun hm => h (List.mem_cons_of_mem c hm)
    simp only [splitNL, if_neg hc, ih ht, consHead]

/-- A string without `\n` is a single line. -/
theorem splitLines_no_newline (l : Str) (h : '\n' ∉ l) : splitLines l = [l] := by
  rw [splitLines, splitNL_no_newline l h]
  rfl

/-- Joining a single line is the identity. -/
theorem joinNL_single (l : Str) : joinNL [l] = l := by
  simp [joinNL, List.intercalate]

/-- `processM3U8` on a single line is the line transform itself. -/
theorem processM3U8_single (l B T : Str) (hnl : '\n' ∉ l) :
    processM3U8 l B T = processLine B (basePath T) l := by
  unfold processM3U8
  rw [splitLines_no_newline l hnl, List.map_singleton, joinNL_single]

/-- The rewriter's output on a rewritten segment line. -/
theorem processLine_segment (B base l abs : Str)
    (hm : containsSub l uriMarker = false)
    (ht : jsTrim l ≠ [] ∧ ¬ (str "#").isPrefixOf (jsTrim l) ∧ ¬ B.isPrefixOf (jsTrim l))
    (habs : segmentAbs base (jsTrim l) = some abs) :
    processLine B base l = B ++ str "?url=" ++ encodeURIComponent abs := by
  unfold processLine
  rw [if_neg (by simp [hm]), if_pos ht, habs]

/-- `afterFirst` finds a pattern placed at the very front. -/
theorem afterFirst_self (pat s : Str) (hne : pat ≠ []) :
    afterFirst (pat ++ s) pat = some s := by
  cases pat with
  | nil => exact absurd rfl hne
  | cons p pt =>
    rw [List.cons_append]
    simp only [afterFirst]
    rw [if_pos (by
      rw [List.isPrefixOf_iff_prefix]
      exact (List.cons_append p pt s) ▸ List.prefix_append (p :: pt) s)]
    simp [List.drop_succ_cons, List.drop_left]

/-- `afterFirst` skips a head character that cannot start the pattern. -/
theorem afterFirst_cons_ne (b : Char) (t : Str) (c0 : Char) (pt : Str) (hne : c0 ≠ b) :
    afterFirst (b :: t) (c0 :: pt) = afterFirst t (c0 :: pt) := by
  simp only [afterFirst]
  rw [if_neg (by simp [List.isPrefixOf, hne])]

/-- `afterFirst` skips any prefix free of the pattern's first character. -/
theorem afterFirst_append_of_not_mem (B s : Str) (c0 : Char) (pt : Str) (hB : c0 ∉ B) :
    afterFirst (B ++ s) (c0 :: pt) = afterFirst s (c0 :: pt) := by
  induction B with
  | nil => rfl
  | cons b Bt ih =>
    have hb : c0 ≠ b := fun he => hB (he ▸ List.mem_cons_self b Bt)
    rw [List.cons_append, afterFirst_cons_ne b _ c0 pt hb,
      ih (fun hm => hB (List.mem_cons_of_mem b hm))]

/-- C10: a rewritten segment line is losslessly reversible: the output line
is exactly `<base>?url=<encodeURIComponent(abs)>`, the portion after the
first `?url=` is precisely that encoding (for a proxy base containing no
`?`), and percent-decoding it recovers exactly the resolved absolute URL. -/
theorem processM3U8_segment_reversible (l B T abs : Str)
    (hnl : '\n' ∉ l) (hq : '?' ∉ B)
    (hm : containsSub l uriMarker = false)
    (ht : jsTrim l ≠ [] ∧ ¬ (str "#").isPrefixOf (jsTrim l) ∧ ¬ B.isPrefixOf (jsTrim l))
    (habs : segmentAbs (basePath T) (jsTrim l) = some abs) :
    processM3U8 l B T = B ++ str "?url=" ++ encodeURIComponent abs ∧
    afterFirst (processM3U8 l B T) (str "?url=") = some (encodeURIComponent abs) ∧
    decodeURIComponent (encodeURIComponent abs) = some abs := by
  have hout : processM3U8 l B T = B ++ str "?url=" ++ encodeURIComponent abs := by
    rw [processM3U8_single l B T hnl, processLine_segment B (basePath T) l abs hm ht habs]
  refine ⟨hout, ?_, decode_encode abs⟩
  rw [hout, List.append_assoc]
  have h1 : afterFirst (B ++ (str "?url=" ++ encodeURIComponent abs)) (str "?url=") =
      afterFirst (str "?url=" ++ encodeURIComponent abs) (str "?url=") :=
    afterFirst_append_of_not_mem B _ '?' (str "url=") hq
  rw [h1, afterFirst_self (str "?url=") (encodeURIComponent abs) (by decide)]

/-- Witness for C10: the spec's own example, `seg1.ts` against
`https://a.com/path/index.m3u8`. -/
theorem processM3U8_segment_reversible_witness :
    processM3U8 (str "seg1.ts") (str "https://h/api/proxy")
        (str "https://a.com/path/index.m3u8") =
      str "https://h/api/proxy" ++ str "?url=" ++
        encodeURIComponent (str "https://a.com/path/seg1.ts") ∧
    decodeURIComponent (encodeURIComponent (str "https://a.com/path/seg1.ts")) =
      some (str "https://a.com/path/seg1.ts") := by
  have h := processM3U8_segment_reversible (str "seg1.ts") (str "https://h/api/proxy")
    (str "https://a.com/path/index.m3u8") (str "https://a.com/path/seg1.ts")
    (by decide) (by decide) (by decide)
    ⟨by decide, by decide, by decide⟩ (by decide)
  exact ⟨h.1, h.2.2⟩

/-- C2 counterexample: the line `httpfoo` is not an absolute URL, so the
claim mandates resolution against the base path
(`https://a.com/path/httpfoo`); the code's `startsWith('http')` test instead
passes the raw value through, so the rewritten line differs from the one the
claim requires. -/
theorem segment_http_prefix_cex :
    isAbsoluteURL (str "httpfoo") = false ∧
    claimSegmentAbs (basePath (str "https://a.com/path/index.m3u8")) (str "httpfoo") =
      some (str "https://a.com/path/httpfoo") ∧
    processM3U8 (str "httpfoo") (str "https://h/api/proxy")
        (str "https://a.com/path/index.m3u8") =
      str "https://h/api/proxy" ++ str "?url=" ++ encodeURIComponent (str "httpfoo") ∧
    processM3U8 (str "httpfoo") (str "https://h/api/proxy")
        (str "https://a.com/path/index.m3u8") ≠
      str "https://h/api/proxy" ++ str "?url=" ++
        encodeURIComponent (str "https://a.com/path/httpfoo") := by
  refine ⟨by decide, by decide, by decide, by decide⟩

/-- C2 (amended): a non-empty, non-comment line that does not start with the
proxy base URL and does not carry a `URI="` attribute is replaced by
`<base>?url=<percent-encoded-absolute-url>`, where the absolute URL is: the
line verbatim when it starts with `http`, `https:` plus the line when it
starts with `//`, and otherwise the resolution of the line against the base
path (the target URL up to and including its final slash); a failed
resolution leaves the line unchanged and never throws. -/
theorem processM3U8_segment_behavior (l B T : Str) (hnl : '\n' ∉ l)
    (hm : containsSub l uriMarker = false)
    (ht : jsTrim l ≠ [] ∧ ¬ (str "#").isPrefixOf (jsTrim l) ∧ ¬ B.isPrefixOf (jsTrim l)) :
    ((str "http").isPrefixOf (jsTrim l) →
      processM3U8 l B T = B ++ str "?url=" ++ encodeURIComponent (jsTrim l)) ∧
    (¬ (str "http").isPrefixOf (jsTrim l) → (str "//").isPrefixOf (jsTrim l) →
      processM3U8 l B T =
        B ++ str "?url=" ++ encodeURIComponent (str "https:" ++ jsTrim l)) ∧
    (¬ (str "http").isPrefixOf (jsTrim l) → ¬ (str "//").isPrefixOf (jsTrim l) →
      (∀ abs, urlResolve (jsTrim l) (basePath T) = some abs →
        processM3U8 l B T = B ++ str "?url=" ++ encodeURIComponent abs) ∧
      (urlResolve (jsTrim l) (basePath T) = none → processM3U8 l B T = l)) := by
  rw [processM3U8_single l B T hnl]
  refine ⟨?_, ?_, ?_⟩
  · intro hh
    have habs : segmentAbs (basePath T) (jsTrim l) = some (jsTrim l) := by
      simp [segmentAbs, hh]
    exact processLine_segment B (basePath T) l (jsTrim l) hm ht habs ▸
      (processM3U8_single l B T hnl).symm ▸ rfl
  · intro hh hs
    have habs : segmentAbs (basePath T) (jsTrim l) = some (str "https:" ++ jsTrim l) := by
      simp [segmentAbs, hh, hs]
    exact processLine_segment B (basePath T) l _ hm ht habs
  · intro hh hs
    constructor
    · intro abs habs
      have habs2 : segmentAbs (basePath T) (jsTrim l) = some abs := by
        simp [segmentAbs, hh, hs, habs]
      exact processLine_segment B (basePath T) l abs hm ht habs2
    · intro hres
      have habs2 : segmentAbs (basePath T) (jsTrim l) = none := by
        simp [segmentAbs, hh, hs, hres]
      unfold processLine
      rw [if_neg (by simp [hm]), if_pos ht, habs2]

/-- Witness for C2 (amended): the spec's scheme-relative example
`//cdn.example.com/seg2.ts` and the relative example `seg1.ts`. -/
theorem processM3U8_segment_behavior_witness :
    processM3U8 (str "//cdn.example.com/seg2.ts") (str "https://h/api/proxy")
        (str "https://a.com/path/index.m3u8") =
      str "https://h/api/proxy" ++ str "?url=" ++
        encodeURIComponent (str "https:" ++ str "//cdn.example.com/seg2.ts") ∧
    processM3U8 (str "seg1.ts") (str "https://h/api/proxy")
        (str "https://a.com/path/index.m3u8") =
      str "https://h/api/proxy" ++ str "?url=" ++
        encodeURIComponent (str "https://a.com/path/seg1.ts") := by
  have h1 := processM3U8_segment_behavior (str "//cdn.example.com/seg2.ts")
    (str "https://h/api/proxy") (str "https://a.com/path/index.m3u8")
    (by decide) (by decide) ⟨by decide, by decide, by decide⟩
  have h2 := processM3U8_segment_behavior (str "seg1.ts")
    (str "https://h/api/proxy") (str "https://a.com/path/index.m3u8")
    (by decide) (by decide) ⟨by decide, by decide, by decide⟩
  exact ⟨h1.2.1 (by decide) (by decide),
    (h2.2.2 (by decide) (by decide)).1 (str "https://a.com/path/seg1.ts") (by decide)⟩

/-- Hex digit characters are in the output character set. -/
theorem hexDigit_ok : ∀ k, k < 16 → encCharOK (hexDigit k) := by decide

/-- Characters of a byte escape are in the output character set. -/
theorem pctByte_chars (b : Nat) (hb : b < 256) (x : Char) (hx : x ∈ pctByte b) :
    encCharOK x := by
  simp only [pctByte, List.mem_cons, List.not_mem_nil, or_false] at hx
  rcases hx with rfl | rfl | rfl
  · decide
  · exact hexDigit_ok _ (by omega)
  · exact hexDigit_ok _ (by omega)

/-- UTF-8 bytes of a scalar value are bytes. -/
theorem utf8Bytes_lt (v : Nat) (hv : v < 0x110000) : ∀ b ∈ utf8Bytes v, b < 256 := by
  intro b hb
  unfold utf8Bytes at hb
  split at hb
  · simp at hb
    omega
  · split at hb
    · simp at hb
      rcases hb with rfl | rfl <;> omega
    · split at hb
      · simp at hb
        rcases hb with rfl | rfl | rfl <;> omega
      · simp at hb
        rcases hb with rfl | rfl | rfl | rfl <;> omega

/-- Every character of `encodeURIComponent` output is in the output set. -/
theorem encodeURIComponent_chars (s : Str) : ∀ x ∈ encodeURIComponent s, encCharOK x := by
  induction s with
  | nil =>
    intro x hx
    simp [encodeURIComponent] at hx
  | cons c cs ih =>
    intro x hx
    rw [show encodeURIComponent (c :: cs) =
        (if isUriUnreserved c then [c] else pctEncodeChar c) ++ encodeURIComponent cs
      from by simp [encodeURIComponent]] at hx
    rcases List.mem_append.mp hx with h | h
    · by_cases hu : isUriUnreserved c
      · rw [if_pos hu] at h
        simp at h
        subst h
        exact Or.inl hu
      · rw [if_neg hu] at h
        have hv := char_valid_nat c
        simp only [pctEncodeChar] at h
        rcases List.mem_flatten.mp h with ⟨bl, hbl, hxbl⟩
        rcases List.mem_map.mp hbl with ⟨b, hbmem, rfl⟩
        exact pctByte_chars b (utf8Bytes_lt c.toNat (by omega) b hbmem) x hxbl
    · exact ih x h

/-- Output-set characters are not whitespace, line breaks, or quotes. -/
theorem encCharOK_facts (x : Char) (h : encCharOK x) :
    isJsWs x = false ∧ x ≠ '\n' ∧ x ≠ '\r' ∧ x ≠ Char.ofNat 34 := by
  refine ⟨?_, ?_, ?_, ?_⟩
  · cases hw : isJsWs x
    · rfl
    · exfalso
      simp only [isJsWs, Bool.or_eq_true, Bool.and_eq_true, decide_eq_true_eq] at hw
      simp only [encCharOK, isUriUnreserved, Bool.or_eq_true, Bool.and_eq_true,
        decide_eq_true_eq] at h
      omega
  · intro he
    subst he
    exact (by decide : ¬ encCharOK '\n') h
  · intro he
    subst he
    exact (by decide : ¬ encCharOK '\r') h
  · intro he
    subst he
    exact (by decide : ¬ encCharOK (Char.ofNat 34)) h

/-- `splitNL` never returns the empty list. -/
theorem splitNL_ne_nil (s : Str) : splitNL s ≠ [] := by
  induction s with
  | nil => simp [splitNL]
  | cons c t ih =>
    simp only [splitNL]
    split
    · simp
    · match h : splitNL t with
      | [] => exact absurd h ih
      | l :: ls => simp [consHead]

/-- `mapButLast` preserves non-emptiness. -/
theorem mapButLast_ne_nil (f : Str → Str) (M : List Str) (h : M ≠ []) :
    mapButLast f M ≠ [] := by
  match M with
  | [] => exact absurd rfl h
  | [x] => simp [mapButLast]
  | x :: y :: xs => simp [mapButLast]

/-- `splitLines` never returns the empty list. -/
theorem splitLines_ne_nil (s : Str) : splitLines s ≠ [] :=
  mapButLast_ne_nil stripCR (splitNL s) (splitNL_ne_nil s)

/-- Chunks of `splitNL` contain no `\n`. -/
theorem splitNL_mem_no_newline (s : Str) : ∀ l ∈ splitNL s, '\n' ∉ l := by
  induction s with
  | nil =>
    intro l hl
    simp [splitNL] at hl
    simp [hl]
  | cons c t ih =>
    intro l hl
    simp only [splitNL] at hl
    by_cases hc : c = '\n'
    · rw [if_pos hc] at hl
      rcases List.mem_cons.mp hl with rfl | h
      · simp
      · exact ih l h
    · rw [if_neg hc] at hl
      match hsp : splitNL t with
      | [] => exact absurd hsp (splitNL_ne_nil t)
      | m :: ms =>
        rw [hsp] at hl
        simp only [consHead] at hl
        rcases List.mem_cons.mp hl with rfl | h
        · intro hmem
          rcases List.mem_cons.mp hmem with he | hm
          · exact hc he.symm
          · exact ih m (hsp ▸ List.mem_cons_self m ms) hm
        · exact ih l (hsp ▸ List.mem_cons_of_mem m h)

/-- Every element of `mapButLast f M` is an element of `M` or the image of
one. -/
theorem mapButLast_mem (f : Str → Str) (M : List Str) :
    ∀ x ∈ mapButLast f M, x ∈ M ∨ ∃ y ∈ M, x = f y := by
  induction M with
  | nil => intro x hx; simp [mapButLast] at hx
  | cons a M ih =>
    intro x hx
    match M, hx with
    | [], hx =>
      simp only [mapButLast, List.mem_singleton] at hx
      exact Or.inl (by simp [hx])
    | b :: M2, hx =>
      simp only [mapButLast, List.mem_cons] at hx
      rcases hx with rfl | hx
      · exact Or.inr ⟨a, List.mem_cons_self a _, rfl⟩
      · rcases ih x hx with h | ⟨y, hy, rfl⟩
        · exact Or.inl (List.mem_cons_of_mem a h)
        · exact Or.inr ⟨y, List.mem_cons_of_mem a hy, rfl⟩

/-- `stripCR` only removes characters. -/
theorem stripCR_subset (l : Str) : ∀ x ∈ stripCR l, x ∈ l := by
  intro x hx
  unfold stripCR at hx
  split at hx
  · exact List.dropLast_subset l hx
  · exact hx

/-- Lines of `splitLines` contain no `\n`. -/
theorem splitLines_mem_no_newline (s : Str) : ∀ l ∈ splitLines s, '\n' ∉ l := by
  intro l hl hmem
  rcases mapButLast_mem stripCR (splitNL s) l hl with h | ⟨y, hy, rfl⟩
  · exact splitNL_mem_no_newline s l h hmem
  · exact splitNL_mem_no_newline s y hy (stripCR_subset y '\n' hmem)

/-- `joinNL` on two or more lines. -/
theorem joinNL_cons (x y : Str) (ys : List Str) :
    joinNL (x :: y :: ys) = x ++ '\n' :: joinNL (y :: ys) := by
  simp [joinNL, List.intercalate, List.intersperse]

/-- `splitNL` undoes appending a line and a newline. -/
theorem splitNL_append_newline (x rest : Str) (hx : '\n' ∉ x) :
    splitNL (x ++ '\n' :: rest) = x :: splitNL rest := by
  induction x with
  | nil => simp [splitNL]
  | cons c t ih =>
    have hc : c ≠ '\n' := fun he => hx (he ▸ List.mem_cons_self c t)
    have ht : '\n' ∉ t := fun hm => hx (List.mem_cons_of_mem c hm)
    rw [List.cons_append]
    simp only [splitNL, if_neg hc, ih ht, consHead]

/-- `splitNL` is a left inverse of `joinNL` on newline-free lines. -/
theorem splitNL_joinNL (M : List Str) (hM : M ≠ []) (h : ∀ l ∈ M, '\n' ∉ l) :
    splitNL (joinNL M) = M := by
  induction M with
  | nil => exact absurd rfl hM
  | cons x M ih =>
    match M with
    | [] =>
      rw [joinNL_single]
      exact splitNL_no_newline x (h x (List.mem_cons_self x []))
    | y :: ys =>
      rw [joinNL_cons x y ys,
        splitNL_append_newline x _ (h x (List.mem_cons_self x _)),
        ih (by simp) (fun l hl => h l (List.mem_cons_of_mem x hl))]

/-- Every character of the URI-attribute rewrite comes from the input line,
the proxy base, the fixed literals, or an `encodeURIComponent` output. -/
theorem uriReplaceAux_mem (B base : Str) (fuel : Nat) :
    ∀ s : Str, ∀ x ∈ uriReplaceAux B base fuel s,
      x ∈ s ∨ x ∈ B ∨ x ∈ uriMarker ∨ x ∈ str "?url=" ∨ x = Char.ofNat 34 ∨
        ∃ a, x ∈ encodeURIComponent a := by
  induction fuel with
  | zero => intro s x hx; exact Or.inl hx
  | succ f ih =>
    intro s x hx
    match s with
    | [] => exact Or.inl hx
    | c :: t =>
      simp only [uriReplaceAux] at hx
      split at hx
      · split at hx
        · rcases List.mem_cons.mp hx with rfl | h
          · exact Or.inl (List.mem_cons_self _ _)
          · rcases ih t x h with h | h
            · exact Or.inl (List.mem_cons_of_mem c h)
            · exact Or.inr h
        · split at hx
          · rcases List.mem_cons.mp hx with rfl | h
            · exact Or.inl (List.mem_cons_self _ _)
            · rcases ih t x h with h | h
              · exact Or.inl (List.mem_cons_of_mem c h)
              · exact Or.inr h
          · simp only [List.append_assoc, List.mem_append, List.mem_singleton] at hx
            rcases hx with h | h | h | h | h | h
            · exact Or.inr (Or.inr (Or.inl h))
            · exact Or.inr (Or.inl h)
            · exact Or.inr (Or.inr (Or.inr (Or.inl h)))
            · exact Or.inr (Or.inr (Or.inr (Or.inr (Or.inr ⟨_, h⟩))))
            · exact Or.inr (Or.inr (Or.inr (Or.inr (Or.inl h))))
            · rcases ih _ x h with h3 | h3
              · exact Or.inl (List.mem_of_mem_drop (List.mem_of_mem_drop h3))
              · exact Or.inr h3
      · rcases List.mem_cons.mp hx with rfl | h
        · exact Or.inl (List.mem_cons_self _ _)
        · rcases ih t x h with h | h
          · exact Or.inl (List.mem_cons_of_mem c h)
          · exact Or.inr h

/-- Every character of a processed line comes from the input line, the proxy
base, the fixed literals, or an `encodeURIComponent` output. -/
theorem processLine_mem (B base l : Str) (x : Char) (hx : x ∈ processLine B base l) :
    x ∈ l ∨ x ∈ B ∨ x ∈ uriMarker ∨ x ∈ str "?url=" ∨ x = Char.ofNat 34 ∨
      ∃ a, x ∈ encodeURIComponent a := by
  unfold processLine at hx
  split at hx
  · exact uriReplaceAux_mem B base l.length l x hx
  · split at hx
    · split at hx
      · simp only [List.append_assoc, List.mem_append] at hx
        rcases hx with h | h | h
        · exact Or.inr (Or.inl h)
        · exact Or.inr (Or.inr (Or.inr (Or.inl h)))
        · exact Or.inr (Or.inr (Or.inr (Or.inr (Or.inr ⟨_, h⟩))))
      · exact Or.inl hx
    · exact Or.inl hx

/-- C9 counterexample: with a proxy base URL containing a newline, a
one-line playlist is rewritten into a two-line output, so the line count is
not preserved. -/
theorem processM3U8_line_count_cex :
    (splitNL (processM3U8 (str "s.ts") (str "x\ny") (str "https://a.com/p/i.m3u8"))).length = 2 ∧
    (splitLines (str "s.ts")).length = 1 := by
  refine ⟨by decide, by decide⟩

/-- C9 (amended): provided the proxy base URL contains no newline, the
output splits back (at `\n`) into exactly one line per input line (split at
`\r?\n`), each being the image of the input line at the same position — no
line is dropped, added or reordered. -/
theorem processM3U8_line_structure (P B T : Str) (hB : '\n' ∉ B) :
    splitNL (processM3U8 P B T) =
      (splitLines P).map (processLine B (basePath T)) ∧
    (splitNL (processM3U8 P B T)).length = (splitLines P).length := by
  have key : splitNL (processM3U8 P B T) =
      (splitLines P).map (processLine B (basePath T)) := by
    unfold processM3U8
    apply splitNL_joinNL
    · simp [splitLines_ne_nil P]
    · intro l' hl' hmem
      rcases List.mem_map.mp hl' with ⟨l, hl, rfl⟩
      rcases processLine_mem B (basePath T) l '\n' hmem with h | h | h | h | h | ⟨a, h⟩
      · exact splitLines_mem_no_newline P l hl h
      · exact hB h
      · exact absurd h (by decide)
      · exact absurd h (by decide)
      · exact absurd h (by decide)
      · exact (encCharOK_facts '\n' (encodeURIComponent_chars a '\n' h)).2.1 rfl
  exact ⟨key, by rw [key, List.length_map]⟩

/-- Witness for C9 (amended): a two-line playlist maps to two lines in
order. -/
theorem processM3U8_line_structure_witness :
    splitNL (processM3U8 (str "#EXTM3U\nseg1.ts") (str "https://h/api/proxy")
        (str "https://a.com/path/index.m3u8")) =
      (splitLines (str "#EXTM3U\nseg1.ts")).map
        (processLine (str "https://h/api/proxy")
          (basePath (str "https://a.com/path/index.m3u8"))) := by
  exact (processM3U8_line_structure (str "#EXTM3U\nseg1.ts") (str "https://h/api/proxy")
    (str "https://a.com/path/index.m3u8") (by decide)).1

/-- `takeWhile` passes over a prefix that satisfies the predicate. -/
theorem takeWhile_append_all (p : Char → Bool) (x y : Str) (hx : ∀ a ∈ x, p a = true) :
    List.takeWhile p (x ++ y) = x ++ List.takeWhile p y := by
  induction x with
  | nil => rfl
  | cons c t ih =>
    have hc : p c = true := hx c (List.mem_cons_self c t)
    rw [List.cons_append]
    simp [List.takeWhile_cons, hc, ih (fun a ha => hx a (List.mem_cons_of_mem c ha))]

/-- `uriReplaceAux` does not depend on its fuel, given enough of it. -/
theorem uriReplaceAux_fuel (B base : Str) : ∀ f1 f2 s, s.length ≤ f1 → s.length ≤ f2 →
    uriReplaceAux B base f1 s = uriReplaceAux B base f2 s := by
  intro f1
  induction f1 with
  | zero =>
    intro f2 s h1 h2
    have hs : s = [] := List.eq_nil_of_length_eq_zero (Nat.le_zero.mp h1)
    subst hs
    cases f2 <;> rfl
  | succ f ih =>
    intro f2 s h1 h2
    cases s with
    | nil => cases f2 <;> rfl
    | cons c t =>
      cases f2 with
      | zero => simp at h2
      | succ f2p =>
        have hl1 : t.length ≤ f := by simpa using h1
        have hl2 : t.length ≤ f2p := by simpa using h2
        simp only [uriReplaceAux]
        split
        · split
          · rw [ih f2p t hl1 hl2]
          · split
            · rw [ih f2p t hl1 hl2]
            · rw [ih f2p _ (by simp [List.length_drop]; omega)
                (by simp [List.length_drop]; omega)]
        · rw [ih f2p t hl1 hl2]

/-- A pattern at the front is found. -/
theorem containsSub_of_isPrefixOf (s pat : Str) (h : pat.isPrefixOf s = true) :
    containsSub s pat = true := by
  cases s with
  | nil =>
    cases pat with
    | nil => rfl
    | cons _ _ => simp [List.isPrefixOf] at h
  | cons c t => simp [containsSub, h]

/-- The scanner finds a `URI="` wherever placed. -/
theorem containsSub_marker (a r : Str) :
    containsSub (a ++ (uriMarker ++ r)) uriMarker = true := by
  induction a with
  | nil =>
    exact containsSub_of_isPrefixOf _ _
      (List.isPrefixOf_iff_prefix.mpr (List.prefix_append _ _))
  | cons c a2 ih =>
    rw [List.cons_append]
    simp only [containsSub, ih, Bool.or_true]

/-- `takeWhile` of a concatenation: either the predicate holds throughout the
first part, which is then passed over, or the scan stops within it. -/
theorem takeWhile_split (p : Char → Bool) (x y : Str) :
    List.takeWhile p (x ++ y) =
      if List.takeWhile p x = x then x ++ List.takeWhile p y
      else List.takeWhile p x := by
  induction x with
  | nil => simp
  | cons c t ih =>
    rw [List.cons_append, List.takeWhile_cons, List.takeWhile_cons]
    by_cases hc : p c = true
    · rw [if_pos hc, if_pos hc, ih]
      by_cases ht : List.takeWhile p t = t
      · rw [if_pos ht, if_pos (show c :: List.takeWhile p t = c :: t from by rw [ht]),
          List.cons_append]
      · rw [if_neg ht, if_neg (show ¬ c :: List.takeWhile p t = c :: t from by
          simpa using ht)]
    · rw [if_neg hc, if_neg hc, if_neg (by simp)]

/-- The first character surviving `dropWhile` fails the predicate. -/
theorem dropWhile_head_false (p : Char → Bool) (l : Str) (d : Char) (ds : Str)
    (h : List.dropWhile p l = d :: ds) : p d = false := by
  induction l with
  | nil => cases h
  | cons c t ih =>
    rw [List.dropWhile_cons] at h
    by_cases hc : p c
    · rw [if_pos hc] at h
      exact ih h
    · rw [if_neg hc] at h
      injection h with h1 _
      subst h1
      exact Bool.eq_false_iff.mpr hc

/-- No occurrence of a pattern in `c :: t` means none in `t`. -/
theorem containsSub_cons_false (c : Char) (t pat : Str)
    (h : containsSub (c :: t) pat = false) : containsSub t pat = false := by
  have h2 : (pat.isPrefixOf (c :: t) || containsSub t pat) = false := h
  exact (Bool.or_eq_false_iff.mp h2).2

/-- The scanner copies a string containing no `URI="` unchanged, whatever the
fuel. -/
theorem uriReplaceAux_nomatch (B base : Str) (fuel : Nat) :
    ∀ s, containsSub s uriMarker = false → uriReplaceAux B base fuel s = s := by
  induction fuel with
  | zero =>
    intro s _
    rfl
  | succ f ih =>
    intro s hs
    cases s with
    | nil => rfl
    | cons c t =>
      have h2 : (uriMarker.isPrefixOf (c :: t) || containsSub t uriMarker) = false := hs
      rcases Bool.or_eq_false_iff.mp h2 with ⟨h1, ht⟩
      simp only [uriReplaceAux]
      rw [if_neg (by simp [h1]), ih t ht]

/-- One step of the `URI="..."` scan: a prefix containing no `URI="` (it may
contain other quoted attributes) is copied, the first quoted value is
rewritten, and scanning continues after it. -/
theorem uriReplaceAux_peel (B base : Str) (a v b : Str) (fuel : Nat)
    (hma : containsSub a uriMarker = false)
    (hv : ∀ x ∈ v, x ≠ Char.ofNat 34) (hvne : v ≠ [])
    (hf : (a ++ (uriMarker ++ (v ++ Char.ofNat 34 :: b))).length ≤ fuel) :
    uriReplaceAux B base fuel (a ++ (uriMarker ++ (v ++ Char.ofNat 34 :: b))) =
      a ++ (uriMarker ++ (B ++ (str "?url=" ++ (encodeURIComponent (uriAbs base v) ++
        Char.ofNat 34 :: uriReplaceAux B base b.length b)))) := by
  have hml : uriMarker.length = 5 := by decide
  have hM : uriMarker = ['U', 'R', 'I', '=', Char.ofNat 34] := by decide
  induction a generalizing fuel with
  | nil =>
    simp only [List.nil_append] at hf ⊢
    have hlen : 6 + b.length ≤ (uriMarker ++ (v ++ Char.ofNat 34 :: b)).length := by
      have hv1 : 0 < v.length := List.length_pos.mpr hvne
      simp only [List.length_append, List.length_cons, hml]
      omega
    cases fuel with
    | zero => omega
    | succ f =>
      rw [hM, show (['U', 'R', 'I', '=', Char.ofNat 34] : Str) ++
          (v ++ Char.ofNat 34 :: b) =
        'U' :: ('R' :: ('I' :: ('=' :: (Char.ofNat 34 :: (v ++ Char.ofNat 34 :: b)))))
        from rfl]
      simp only [uriReplaceAux]
      rw [hM]
      rw [if_pos (show List.isPrefixOf ['U', 'R', 'I', '=', Char.ofNat 34]
          ('U' :: 'R' :: 'I' :: '=' :: Char.ofNat 34 :: (v ++ Char.ofNat 34 :: b)) = true
        from List.isPrefixOf_iff_prefix.mpr ⟨v ++ Char.ofNat 34 :: b, rfl⟩)]
      have hdrop : ('U' :: ('R' :: ('I' :: ('=' :: (Char.ofNat 34 ::
          (v ++ Char.ofNat 34 :: b)))))).drop 5 = v ++ Char.ofNat 34 :: b := rfl
      rw [hdrop]
      have htake : List.takeWhile (fun x => x != Char.ofNat 34) (v ++ Char.ofNat 34 :: b) =
          v := by
        rw [takeWhile_append_all _ v _ (fun x hx => by simpa using hv x hx)]
        simp
      rw [htake]
      rw [if_neg (by simp [List.isEmpty_iff, hvne])]
      have hdrop2 : (v ++ Char.ofNat 34 :: b).drop v.length = Char.ofNat 34 :: b :=
        List.drop_left v _
      rw [hdrop2]
      rw [if_neg (by simp)]
      have hdrop3 : (v ++ Char.ofNat 34 :: b).drop (v.length + 1) = b := by
        rw [show v ++ Char.ofNat 34 :: b = (v ++ [Char.ofNat 34]) ++ b from by simp,
          show v.length + 1 = (v ++ [Char.ofNat 34]).length from by simp]
        exact List.drop_left _ _
      rw [hdrop3]
      rw [uriReplaceAux_fuel B base f b.length b (by omega) (le_refl _)]
      simp [hM]
  | cons c a2 ih =>
    cases fuel with
    | zero =>
      exfalso
      simp at hf
    | succ f =>
      rw [List.cons_append]
      simp only [uriReplaceAux]
      rw [if_neg ?hnp]
      case hnp =>
        intro hpre
        rcases List.isPrefixOf_iff_prefix.mp hpre with ⟨suff, hseq⟩
        have htw := congrArg (List.takeWhile (fun x => x != Char.ofNat 34)) hseq
        rw [hM] at htw
        rw [show (['U', 'R', 'I', '=', Char.ofNat 34] : Str) ++ suff =
            ['U', 'R', 'I', '='] ++ (Char.ofNat 34 :: suff) from rfl,
          takeWhile_append_all _ ['U', 'R', 'I', '='] _ (by decide),
          show List.takeWhile (fun x => x != Char.ofNat 34) (Char.ofNat 34 :: suff) = []
            from by simp,
          show c :: (a2 ++ (['U', 'R', 'I', '=', Char.ofNat 34] ++
              (v ++ Char.ofNat 34 :: b))) =
            (c :: a2) ++ (['U', 'R', 'I', '=', Char.ofNat 34] ++ (v ++ Char.ofNat 34 :: b))
            from rfl,
          takeWhile_split _ (c :: a2) _] at htw
        by_cases hq : List.takeWhile (fun x => x != Char.ofNat 34) (c :: a2) = c :: a2
        · rw [if_pos hq,
            show (['U', 'R', 'I', '=', Char.ofNat 34] : Str) ++ (v ++ Char.ofNat 34 :: b) =
              ['U', 'R', 'I', '='] ++ (Char.ofNat 34 :: (v ++ Char.ofNat 34 :: b)) from rfl,
            takeWhile_append_all _ ['U', 'R', 'I', '='] _ (by decide),
            show List.takeWhile (fun x => x != Char.ofNat 34)
                (Char.ofNat 34 :: (v ++ Char.ofNat 34 :: b)) = []
              from by simp] at htw
          have hlen := congrArg List.length htw
          simp at hlen
        · rw [if_neg hq] at htw
          have hsplit : List.takeWhile (fun x => x != Char.ofNat 34) (c :: a2) ++
              List.dropWhile (fun x => x != Char.ofNat 34) (c :: a2) = c :: a2 :=
            List.takeWhile_append_dropWhile ..
          rcases hd : List.dropWhile (fun x => x != Char.ofNat 34) (c :: a2) with _ | ⟨d, ds⟩
          · rw [hd, List.append_nil] at hsplit
            exact hq hsplit
          · have hdq : d = Char.ofNat 34 := by
              have hpd := dropWhile_head_false (fun x => x != Char.ofNat 34) (c :: a2) d ds hd
              simpa using hpd
            subst hdq
            have hfront : c :: a2 = ['U', 'R', 'I', '='] ++ (Char.ofNat 34 :: ds) := by
              rw [← hsplit, hd, ← htw]
              simp
            have hpre2 : containsSub (c :: a2) uriMarker = true :=
              containsSub_of_isPrefixOf _ _
                (List.isPrefixOf_iff_prefix.mpr ⟨ds, by rw [hM, hfront]; exact rfl⟩)
            rw [hpre2] at hma
            cases hma
      rw [ih f (containsSub_cons_false c a2 uriMarker hma) (by simpa using hf)]
      rfl

/-- C3 counterexample: in `#EXT-X-KEY:URI="httpx"` the quoted value `httpx`
is not an absolute URL, so the claim mandates resolution against the base
path; the code's `startsWith('http')` test instead uses it verbatim, and the
produced line differs from the one the claim requires. -/
theorem uri_http_prefix_cex :
    isAbsoluteURL (str "httpx") = false ∧
    processM3U8 (str "#EXT-X-KEY:URI=\"httpx\"") (str "https://h/api/proxy")
        (str "https://a.com/p/idx.m3u8") =
      str "#EXT-X-KEY:URI=\"https://h/api/proxy?url=httpx\"" ∧
    processM3U8 (str "#EXT-X-KEY:URI=\"httpx\"") (str "https://h/api/proxy")
        (str "https://a.com/p/idx.m3u8") ≠
      str "#EXT-X-KEY:URI=\"https://h/api/proxy?url=https%3A%2F%2Fa.com%2Fp%2Fhttpx\"" := by
  refine ⟨by decide, by decide, by decide⟩

/-- The scanner rewrites every decomposed `URI="..."` occurrence and copies
all text between, before and after the occurrences unchanged. -/
theorem uriReplaceAux_multi (B base : Str) (parts : List (Str × Str)) (tail : Str)
    (htail : containsSub tail uriMarker = false)
    (hparts : ∀ p ∈ parts, containsSub p.1 uriMarker = false ∧ p.2 ≠ [] ∧
      ∀ x ∈ p.2, x ≠ Char.ofNat 34) :
    ∀ fuel, (uriSpecLine parts tail).length ≤ fuel →
      uriReplaceAux B base fuel (uriSpecLine parts tail) =
        uriSpecRewritten B base parts tail := by
  induction parts with
  | nil =>
    intro fuel _
    exact uriReplaceAux_nomatch B base fuel tail htail
  | cons pv rest ih =>
    intro fuel hfuel
    rcases pv with ⟨a, v⟩
    obtain ⟨hma, hvne, hv⟩ := hparts (a, v) (List.mem_cons_self _ _)
    rw [show uriSpecLine ((a, v) :: rest) tail =
      a ++ (uriMarker ++ (v ++ Char.ofNat 34 :: uriSpecLine rest tail)) from rfl] at hfuel ⊢
    rw [uriReplaceAux_peel B base a v (uriSpecLine rest tail) fuel hma hv hvne hfuel]
    rw [ih (fun p hp => hparts p (List.mem_cons_of_mem _ hp))
      (uriSpecLine rest tail).length (le_refl _)]
    rfl

/-- C3 (amended): a playlist line decomposed as `uriSpecLine parts tail`
into one or more `URI="..."` occurrences — each preceding text containing no
`URI="` (it may contain other quoted attributes), each quoted value
non-empty and quote-free, the trailing text containing no `URI="` — is
rewritten occurrence by occurrence: each quoted value is kept verbatim when
it starts with `http` and is otherwise resolved against the base path with
verbatim fallback on failure (never throwing), each occurrence is
substituted with `URI="<proxyBaseUrl>?url=<percent-encoded-absolute-url>"`,
and all characters outside the occurrences are unchanged
(`uriSpecRewritten`). -/
theorem processM3U8_uri_rewrite (parts : List (Str × Str)) (tail B T : Str)
    (hne : parts ≠ [])
    (hparts : ∀ p ∈ parts, containsSub p.1 uriMarker = false ∧ p.2 ≠ [] ∧
      ∀ x ∈ p.2, x ≠ Char.ofNat 34)
    (htail : containsSub tail uriMarker = false)
    (hnl : '\n' ∉ uriSpecLine parts tail) :
    processM3U8 (uriSpecLine parts tail) B T =
      uriSpecRewritten B (basePath T) parts tail ∧
    (∀ v, (str "http").isPrefixOf v → uriAbs (basePath T) v = v) ∧
    (∀ v h, ¬ (str "http").isPrefixOf v → urlResolve v (basePath T) = some h →
      uriAbs (basePath T) v = h) ∧
    (∀ v, ¬ (str "http").isPrefixOf v → urlResolve v (basePath T) = none →
      uriAbs (basePath T) v = v) := by
  refine ⟨?_, ?_, ?_, ?_⟩
  · rcases parts with _ | ⟨⟨a, v⟩, rest⟩
    · exact absurd rfl hne
    · rw [processM3U8_single _ B T hnl]
      unfold processLine
      rw [show uriSpecLine ((a, v) :: rest) tail =
        a ++ (uriMarker ++ (v ++ Char.ofNat 34 :: uriSpecLine rest tail)) from rfl]
      rw [if_pos (containsSub_marker a _)]
      exact uriReplaceAux_multi B (basePath T) ((a, v) :: rest) tail htail hparts
        (uriSpecLine ((a, v) :: rest) tail).length (le_refl _)
  · intro v hh
    simp [uriAbs, hh]
  · intro v h hh hres
    simp [uriAbs, hh, hres]
  · intro v hh hres
    simp [uriAbs, hh, hres]

/-- Witness for C3 (amended): the attribute line
`#EXT-X-MEDIA:TYPE=AUDIO,NAME="eng",URI="a.m3u8"`, whose text before the
occurrence contains another quoted attribute, and the two-occurrence line
`URI="k1.bin",URI="k2.bin"`. -/
theorem processM3U8_uri_rewrite_witness :
    uriSpecLine [(str "#EXT-X-MEDIA:TYPE=AUDIO,NAME=\"eng\",", str "a.m3u8")] [] =
      str "#EXT-X-MEDIA:TYPE=AUDIO,NAME=\"eng\",URI=\"a.m3u8\"" ∧
    processM3U8
        (uriSpecLine [(str "#EXT-X-MEDIA:TYPE=AUDIO,NAME=\"eng\",", str "a.m3u8")] [])
        (str "https://h/api/proxy") (str "https://a.com/p/idx.m3u8") =
      uriSpecRewritten (str "https://h/api/proxy")
        (basePath (str "https://a.com/p/idx.m3u8"))
        [(str "#EXT-X-MEDIA:TYPE=AUDIO,NAME=\"eng\",", str "a.m3u8")] [] ∧
    uriSpecLine [(([] : Str), str "k1.bin"), (str ",", str "k2.bin")] [] =
      str "URI=\"k1.bin\",URI=\"k2.bin\"" ∧
    processM3U8 (uriSpecLine [(([] : Str), str "k1.bin"), (str ",", str "k2.bin")] [])
        (str "https://h/api/proxy") (str "https://a.com/p/idx.m3u8") =
      uriSpecRewritten (str "https://h/api/proxy")
        (basePath (str "https://a.com/p/idx.m3u8"))
        [(([] : Str), str "k1.bin"), (str ",", str "k2.bin")] [] := by
  refine ⟨by decide, ?_, by decide, ?_⟩
  · exact (processM3U8_uri_rewrite
      [(str "#EXT-X-MEDIA:TYPE=AUDIO,NAME=\"eng\",", str "a.m3u8")] []
      (str "https://h/api/proxy") (str "https://a.com/p/idx.m3u8")
      (by decide) (by decide) (by decide) (by decide)).1
  · exact (processM3U8_uri_rewrite
      [(([] : Str), str "k1.bin"), (str ",", str "k2.bin")] []
      (str "https://h/api/proxy") (str "https://a.com/p/idx.m3u8")
      (by decide) (by decide) (by decide) (by decide)).1

/-- A found pattern is an infix. -/
theorem infix_of_containsSub (s pat : Str) (h : containsSub s pat = true) :
    pat <:+: s := by
  induction s with
  | nil =>
    simp only [containsSub, List.isEmpty_iff] at h
    simp [h]
  | cons c t ih =>
    simp only [containsSub, Bool.or_eq_true] at h
    rcases h with h | h
    · exact (List.isPrefixOf_iff_prefix.mp h).isInfix
    · exact (ih h).trans (List.suffix_cons c t).isInfix

/-- A quote-free string contains no `URI="`. -/
theorem containsSub_marker_false (l : Str) (h : ∀ x ∈ l, x ≠ Char.ofNat 34) :
    containsSub l uriMarker = false := by
  cases hc : containsSub l uriMarker
  · rfl
  · exact absurd rfl
      (h (Char.ofNat 34) ((infix_of_containsSub l uriMarker hc).subset (by decide)))

/-- `jsTrim` fixes a string whose ends are not whitespace. -/
theorem jsTrim_eq_self (l : Str)
    (h1 : ∀ c, l.head? = some c → isJsWs c = false)
    (h2 : ∀ c, l.getLast? = some c → isJsWs c = false) : jsTrim l = l := by
  unfold jsTrim
  have hd : l.dropWhile isJsWs = l := by
    cases l with
    | nil => rfl
    | cons c t => simp [List.dropWhile_cons, h1 c rfl]
  rw [hd]
  have hr : l.reverse.dropWhile isJsWs = l.reverse := by
    cases hrev : l.reverse with
    | nil => rfl
    | cons c t =>
      have hlst : l.getLast? = some c := by
        rw [← List.head?_reverse, hrev]
        rfl
      simp [List.dropWhile_cons, h2 c hlst]
  rw [hr, List.reverse_reverse]

/-- `stripCR` fixes a line not ending in `\r`. -/
theorem stripCR_eq_self (l : Str) (h : l.getLast? ≠ some '\r') : stripCR l = l := by
  unfold stripCR
  rw [if_neg h]

/-- `mapButLast` of a pointwise-fixing function is the identity. -/
theorem mapButLast_id (f : Str → Str) (M : List Str) (h : ∀ l ∈ M, f l = l) :
    mapButLast f M = M := by
  induction M with
  | nil => rfl
  | cons x M ih =>
    match M with
    | [] => rfl
    | y :: ys =>
      simp only [mapButLast]
      rw [h x (List.mem_cons_self x _), ih (fun l hl => h l (List.mem_cons_of_mem x hl))]

/-- A processed line is either unchanged or a full segment rewrite. -/
theorem processLine_cases (B base l : Str) (hm : containsSub l uriMarker = false) :
    processLine B base l = l ∨ ∃ abs, segmentAbs base (jsTrim l) = some abs ∧
      processLine B base l = B ++ str "?url=" ++ encodeURIComponent abs := by
  unfold processLine
  rw [if_neg (by simp [hm])]
  split
  · rcases h : segmentAbs base (jsTrim l) with _ | abs
    · exact Or.inl (by simp)
    · exact Or.inr ⟨abs, rfl, by simp⟩
  · exact Or.inl rfl

/-- Characters of the fixed literal `?url=` are ordinary. -/
theorem qurl_chars : ∀ x ∈ str "?url=",
    x ≠ Char.ofNat 34 ∧ x ≠ '\n' ∧ x ≠ '\r' ∧ isJsWs x = false := by decide

/-- The last character of a rewritten segment line. -/
theorem rewritten_last (B enc : Str) (hc : ∀ x ∈ enc, encCharOK x) :
    ∀ c, (B ++ str "?url=" ++ enc).getLast? = some c →
      isJsWs c = false ∧ c ≠ '\r' := by
  intro c hlast
  cases enc with
  | nil =>
    rw [List.append_nil, List.getLast?_append,
      show (str "?url=").getLast? = some '=' from rfl] at hlast
    simp at hlast
    subst hlast
    exact ⟨by decide, by decide⟩
  | cons e es =>
    rcases hg : List.getLast? (e :: es) with _ | d
    · simp at hg
    · rw [List.getLast?_append, hg] at hlast
      simp at hlast
      subst hlast
      have hmem : d ∈ e :: es := List.mem_of_mem_getLast? hg
      have hok := encCharOK_facts d (hc d hmem)
      exact ⟨hok.1, hok.2.2.1⟩

/-- A rewritten segment line is fixed by a second pass. -/
theorem processLine_fixes_rewritten (B base abs : Str)
    (hB1 : Char.ofNat 34 ∉ B)
    (hB4 : ∀ c, B.head? = some c → isJsWs c = false) :
    processLine B base (B ++ str "?url=" ++ encodeURIComponent abs) =
      B ++ str "?url=" ++ encodeURIComponent abs := by
  have hencOK := encodeURIComponent_chars abs
  have hnq : ∀ x ∈ B ++ str "?url=" ++ encodeURIComponent abs, x ≠ Char.ofNat 34 := by
    intro x hx
    rcases List.mem_append.mp hx with hx | hx
    · rcases List.mem_append.mp hx with hx | hx
      · exact fun he => hB1 (he ▸ hx)
      · exact (qurl_chars x hx).1
    · exact (encCharOK_facts x (hencOK x hx)).2.2.2
  have htrim : jsTrim (B ++ str "?url=" ++ encodeURIComponent abs) =
      B ++ str "?url=" ++ encodeURIComponent abs := by
    apply jsTrim_eq_self
    · intro c hcH
      rcases hBh : B.head? with _ | b0
      · have hBnil : B = [] := List.head?_eq_none_iff.mp hBh
        subst hBnil
        rw [show ([] : Str) ++ str "?url=" ++ encodeURIComponent abs =
          '?' :: (str "url=" ++ encodeURIComponent abs) from rfl] at hcH
        simp at hcH
        subst hcH
        decide
      · rw [List.head?_append, List.head?_append, hBh] at hcH
        simp at hcH
        subst hcH
        exact hB4 b0 hBh
    · intro c hcL
      exact (rewritten_last B (encodeURIComponent abs) hencOK c hcL).1
  unfold processLine
  rw [if_neg (show ¬ containsSub (B ++ str "?url=" ++ encodeURIComponent abs)
      uriMarker = true from by
    rw [containsSub_marker_false _ hnq]
    simp)]
  rw [if_neg ?hguard]
  case hguard =>
    intro hcond
    exact hcond.2.2 (by
      rw [htrim]
      exact List.isPrefixOf_iff_prefix.mpr ⟨str "?url=" ++ encodeURIComponent abs, by simp⟩)

/-- C1 counterexample: a `URI="..."` line is not left untouched by a second
pass — the already-proxied quoted value starts with `http`, so it is taken
verbatim and percent-encoded a second time. -/
theorem processM3U8_not_idempotent_cex :
    processM3U8
        (processM3U8 (str "#EXT-X-KEY:URI=\"k.bin\"") (str "https://h/api/proxy")
          (str "https://a.com/p/i.m3u8"))
        (str "https://h/api/proxy") (str "https://a.com/p/i.m3u8") ≠
      processM3U8 (str "#EXT-X-KEY:URI=\"k.bin\"") (str "https://h/api/proxy")
        (str "https://a.com/p/i.m3u8") := by
  decide

/-- C1 (amended): rewriting twice equals rewriting once, for playlists none
of whose lines carries a `URI="` attribute or ends in a stray `\r`, and a
proxy base URL that is free of double quotes, newlines and carriage returns
and does not start with whitespace.  (Lines already rewritten to start with
the base are left untouched by the guard; `URI="` lines are excluded because
the URI branch has no such guard and re-encodes, as the counterexample
shows.) -/
theorem processM3U8_idempotent (P B T : Str)
    (hP1 : ∀ l ∈ splitLines P, containsSub l uriMarker = false)
    (hP2 : ∀ l ∈ splitLines P, l.getLast? ≠ some '\r')
    (hB1 : Char.ofNat 34 ∉ B) (hB2 : '\n' ∉ B)
    (hB4 : ∀ c, B.head? = some c → isJsWs c = false) :
    processM3U8 (processM3U8 P B T) B T = processM3U8 P B T := by
  have hmemL' : ∀ l' ∈ (splitLines P).map (processLine B (basePath T)),
      '\n' ∉ l' ∧ l'.getLast? ≠ some '\r' := by
    intro l' hl'
    rcases List.mem_map.mp hl' with ⟨l, hl, rfl⟩
    constructor
    · intro hmem
      rcases processLine_mem B (basePath T) l '\n' hmem with h | h | h | h | h | ⟨a, h⟩
      · exact splitLines_mem_no_newline P l hl h
      · exact hB2 h
      · exact absurd h (by decide)
      · exact absurd h (by decide)
      · exact absurd h (by decide)
      · exact (encCharOK_facts '\n' (encodeURIComponent_chars a '\n' h)).2.1 rfl
    · rcases processLine_cases B (basePath T) l (hP1 l hl) with heq | ⟨abs, _, heq⟩
      · rw [heq]
        exact hP2 l hl
      · rw [heq]
        intro hlast
        exact absurd rfl
          (rewritten_last B (encodeURIComponent abs) (encodeURIComponent_chars abs)
            '\r' hlast).2
  have hsplit : splitLines (joinNL ((splitLines P).map (processLine B (basePath T)))) =
      (splitLines P).map (processLine B (basePath T)) := by
    unfold splitLines
    rw [show mapButLast stripCR (splitNL P) = splitLines P from rfl,
      splitNL_joinNL _ (by simp [splitLines_ne_nil P])
        (fun l hl => (hmemL' l hl).1),
      mapButLast_id _ _ (fun l hl => stripCR_eq_self l (hmemL' l hl).2)]
  have hff : ∀ l ∈ splitLines P,
      processLine B (basePath T) (processLine B (basePath T) l) =
        processLine B (basePath T) l := by
    intro l hl
    rcases processLine_cases B (basePath T) l (hP1 l hl) with heq | ⟨abs, _, heq⟩
    · rw [heq, heq]
    · rw [heq, processLine_fixes_rewritten B (basePath T) abs hB1 hB4]
  show joinNL ((splitLines (joinNL ((splitLines P).map (processLine B (basePath T))))).map
      (processLine B (basePath T))) =
    joinNL ((splitLines P).map (processLine B (basePath T)))
  rw [hsplit, List.map_map]
  congr 1
  exact List.map_congr_left (fun l hl => hff l hl)

/-- Witness for C1 (amended): a comment-and-segments playlist. -/
theorem processM3U8_idempotent_witness :
    processM3U8
        (processM3U8 (str "#EXTM3U\nseg1.ts\n\nseg2.ts") (str "https://h/api/proxy")
          (str "https://a.com/path/index.m3u8"))
        (str "https://h/api/proxy") (str "https://a.com/path/index.m3u8") =
      processM3U8 (str "#EXTM3U\nseg1.ts\n\nseg2.ts") (str "https://h/api/proxy")
        (str "https://a.com/path/index.m3u8") := by
  exact processM3U8_idempotent (str "#EXTM3U\nseg1.ts\n\nseg2.ts")
    (str "https://h/api/proxy") (str "https://a.com/path/index.m3u8")
    (by decide) (by decide) (by decide) (by decide) (by decide)
